import Mathlib

/-!
# Verification of the `duratypes` duration parsing/formatting core

A shallow embedding of `src/duratypes/core.py`: the exception hierarchy,
`_extract_sign`, `_parse_iso8601` (regex `_ISO_RE`), `_parse_compound`
(regex `_COMPOUND_RE` plus the gap/coverage check), `_parse_numeric`,
`parse_duration` and `format_duration`.

Modelling conventions:
* Python values that can reach the two public functions are modelled by
  `PyVal`; Python `bool` is kept separate because `isinstance(b, int)` is
  true for booleans.
* Python `float` is modelled by `PyFloat`: a finite value carries the exact
  rational it denotes.  The float arithmetic the parsers perform
  (`float(literal)`, `+`, `*` on doubles) is modelled exactly as IEEE-754
  binary64 round-to-nearest, ties-to-even, with unbounded exponent range
  (`rnd` below); overflow/subnormal behaviour of binary64 is irrelevant at
  the magnitudes any of the theorems touch.
* Strings are `List Char`; only ASCII whitespace / case mapping is modelled
  (the claims' inputs are ASCII).
* Raised exceptions become `Except PyErr`; the Python class hierarchy of the
  four raised exception kinds is modelled by `PyExcClass` / `isSubclass`.
* Regular-expression matching is modelled by deterministic scanners that
  follow the regexes' ordered-alternation, greedy semantics; comments note
  the correspondence.
-/

set_option allowUnsafeReducibility true
attribute [semireducible] Rat.mul Rat.add Rat.sub Rat.neg

namespace Duratypes

/-- A Python float: a finite double (carrying the exact rational value it
denotes), or one of the special values. -/
inductive PyFloat where
  | finite (q : ℚ)
  | nan
  | inf
  | ninf
deriving DecidableEq

/-- The Python values relevant to `parse_duration` / `format_duration`.
`bool` is separate from `int` because `isinstance(True, int)` holds in
Python; `list` stands for any value that is none of None/int/bool/float/str
(list, dict, object, ...). -/
inductive PyVal where
  | none
  | int (n : ℤ)
  | bool (b : Bool)
  | float (x : PyFloat)
  | str (s : List Char)
  | list
deriving DecidableEq

/-- The four failure kinds the two public functions can raise:
`InvalidFormatError`, `InvalidTypeError`, `InvalidValueError` (core.py lines
9-26) and the built-in `OverflowError` that `int(float('inf'))` raises. -/
inductive PyErr where
  | invalidFormat
  | invalidType
  | invalidValue
  | overflow
deriving DecidableEq

instance {ε α : Type} [DecidableEq ε] [DecidableEq α] : DecidableEq (Except ε α) := fun a b =>
  match a, b with
  | .ok x, .ok y =>
    if h : x = y then .isTrue (by rw [h]) else .isFalse (fun hh => by cases hh; exact h rfl)
  | .error x, .error y =>
    if h : x = y then .isTrue (by rw [h]) else .isFalse (fun hh => by cases hh; exact h rfl)
  | .ok _, .error _ => .isFalse (fun hh => by cases hh)
  | .error _, .ok _ => .isFalse (fun hh => by cases hh)

/-- The exception classes involved: the three classes core.py declares, their
base `DurationError`, and the built-in classes they descend from, plus the
built-in `OverflowError` / `ArithmeticError` branch. -/
inductive PyExcClass where
  | exceptionBase
  | valueError
  | typeError
  | arithmeticError
  | overflowError
  | durationError
  | invalidFormatError
  | invalidTypeError
  | invalidValueError
deriving DecidableEq

/-- Direct base classes: core.py lines 9-26 (`DurationError(ValueError)`,
`InvalidFormatError(DurationError)`, `InvalidTypeError(DurationError,
TypeError)`, `InvalidValueError(DurationError)`) together with Python's
builtin hierarchy (`ValueError`/`TypeError`/`ArithmeticError` under
`Exception`, `OverflowError` under `ArithmeticError`). -/
def directBases : PyExcClass → List PyExcClass
  | .exceptionBase => []
  | .valueError => [.exceptionBase]
  | .typeError => [.exceptionBase]
  | .arithmeticError => [.exceptionBase]
  | .overflowError => [.arithmeticError]
  | .durationError => [.valueError]
  | .invalidFormatError => [.durationError]
  | .invalidTypeError => [.durationError, .typeError]
  | .invalidValueError => [.durationError]

/-- Fueled reflexive-transitive subclass test (`issubclass`). -/
def isSubclassF : ℕ → PyExcClass → PyExcClass → Bool
  | 0, _, _ => false
  | f + 1, c, d => c = d || (directBases c).any fun b => isSubclassF f b d

/-- `issubclass c d` in Python; fuel 8 exceeds the hierarchy's depth. -/
def isSubclass (c d : PyExcClass) : Bool := isSubclassF 8 c d

/-- The class of each raised failure: the three `DurationError` subclasses of
core.py and the builtin `OverflowError` from `int(float('inf'))`. -/
def classOf : PyErr → PyExcClass
  | .invalidFormat => .invalidFormatError
  | .invalidType => .invalidTypeError
  | .invalidValue => .invalidValueError
  | .overflow => .overflowError

/-! ## Characters, whitespace, digits -/

/-- ASCII whitespace, as both Python's `str.strip()` and the regexes' `\s`
treat it (Unicode whitespace beyond ASCII is not modelled; every string in
the claims is ASCII). -/
def isWS (c : Char) : Bool :=
  c = ' ' || c = '\t' || c = '\n' || c = '\r' || c = Char.ofNat 11 || c = Char.ofNat 12

/-- `str.strip()` on ASCII strings. -/
def stripChars (s : List Char) : List Char :=
  ((s.dropWhile isWS).reverse.dropWhile isWS).reverse

/-- ASCII lowering (`str.lower()` / `re.IGNORECASE` on ASCII input). -/
def lowerStr (s : List Char) : List Char := s.map Char.toLower

/-- Value of a digit string (most significant first). -/
def digitsToNat (ds : List Char) : ℕ :=
  ds.foldl (fun a c => 10 * a + (c.toNat - 48)) 0

/-- Exact rational value of the decimal literal `ip [. fp]`. -/
def decimalToRat (ip fp : List Char) : ℚ :=
  mkRat (digitsToNat ip * 10 ^ fp.length + digitsToNat fp) (10 ^ fp.length)

/-! ## IEEE-754 binary64 rounding model

`rnd q` is the binary64 double nearest to `q` (ties to even), as a rational,
with the exponent range unbounded (no overflow / subnormals: all values the
development evaluates are far inside the normal range).  `float(s)` on a
decimal literal, float `+` and float `*` are `rnd` of the exact result. -/

/-- Fueled `⌊log₂ n⌋` for `n ≥ 1` (0 when fuel runs out; fuel 1400 covers
every value below `2 ^ 1400`). -/
def log2p : ℕ → ℕ → ℕ
  | 0, _ => 0
  | f + 1, n => if n < 2 then 0 else log2p f (n / 2) + 1

/-- `⌊q⌋` as a natural number, for positive `q`. -/
def ratFloorPosNat (q : ℚ) : ℕ := q.num.toNat / q.den

/-- `1 / q` for positive `q`, built directly from the normalized fields. -/
def ratInvPos (q : ℚ) : ℚ := mkRat q.den q.num.toNat

/-- `⌊log₂ q⌋` for positive `q`. -/
def qfloorlog2 (q : ℚ) : ℤ :=
  if 1 ≤ q then (log2p 1400 (ratFloorPosNat q) : ℤ)
  else
    let l := log2p 1400 (ratFloorPosNat (ratInvPos q))
    if 1 ≤ q * ((2 ^ l : ℕ) : ℚ) then -(l : ℤ) else -(l : ℤ) - 1

/-- `2 ^ e` as a rational, for an integer exponent. -/
def pow2z : ℤ → ℚ
  | .ofNat n => mkRat (2 ^ n) 1
  | .negSucc n => mkRat 1 (2 ^ (n + 1))

/-- Round a positive rational to 53 significant bits, half to even. -/
def rndPos (q : ℚ) : ℚ :=
  let e : ℤ := qfloorlog2 q - 52
  let scaled : ℚ := q * pow2z (-e)
  let fl : ℤ := scaled.num.fdiv scaled.den
  let fr : ℚ := scaled - (fl : ℚ)
  let m : ℤ :=
    if mkRat 1 2 < fr then fl + 1
    else if fr < mkRat 1 2 then fl
    else if fl % 2 = 0 then fl else fl + 1
  (m : ℚ) * pow2z e

/-- Round any rational to the nearest binary64 value (ties to even). -/
def rnd (q : ℚ) : ℚ :=
  if q = 0 then 0 else if q < 0 then -rndPos (-q) else rndPos q

/-- Binary64 addition. -/
def fadd (a b : ℚ) : ℚ := rnd (a + b)

/-- Binary64 multiplication. -/
def fmul (a b : ℚ) : ℚ := rnd (a * b)

/-- Python `int(x)` on a finite float / `int(total)`: truncation toward 0. -/
def pyTrunc (q : ℚ) : ℤ := q.num.tdiv q.den

/-! ## The compound grammar (`_COMPOUND_RE` and `_parse_compound`) -/

/-- The seven unit kinds of `_COMPOUND_RE`. -/
inductive TUnit where
  | year
  | month
  | week
  | day
  | hour
  | minute
  | second
deriving DecidableEq

/-- Per-unit second multipliers (core.py constants, lines 30-35). -/
def unitSeconds : TUnit → ℕ
  | .year => 31536000
  | .month => 2592000
  | .week => 604800
  | .day => 86400
  | .hour => 3600
  | .minute => 60
  | .second => 1

/-- Match a literal, returning the rest, or fail. -/
def tryLit : List Char → List Char → Option (List Char)
  | [], s => some s
  | c :: cs, d :: ds => if d = c then tryLit cs ds else Option.none
  | _ :: _, [] => Option.none

/-- Optional literal (regex `(?:lit)?`, greedy). -/
def optLit (lit s : List Char) : List Char := (tryLit lit s).getD s

/-- Optional single character (regex `c?`, greedy). -/
def optChar (c : Char) : List Char → List Char
  | d :: ds => if d = c then ds else d :: ds
  | [] => []

/-- The unit alternation of `_COMPOUND_RE`, on lowered input, in the regex's
order: `y(ear)?s? | mo(nth)?s? | w(eek)?s? | d(ay)?s? | h(our)?s? |
m(in(ute)?s?)? | s(ec(ond)?s?)?`.  Ordered alternation makes `mo...` win
over bare `m`: the month alternative applies exactly when the input starts
`mo`. -/
def unitScan : List Char → Option (TUnit × List Char)
  | [] => none
  | c :: r =>
    if c = 'y' then some (.year, optChar 's' (optLit ['e', 'a', 'r'] r))
    else if c = 'm' ∧ r.head? = some 'o' then
      some (.month, optChar 's' (optLit ['n', 't', 'h'] r.tail))
    else if c = 'w' then some (.week, optChar 's' (optLit ['e', 'e', 'k'] r))
    else if c = 'd' then some (.day, optChar 's' (optLit ['a', 'y'] r))
    else if c = 'h' then some (.hour, optChar 's' (optLit ['o', 'u', 'r'] r))
    else if c = 'm' then
      some (.minute,
        match tryLit ['i', 'n'] r with
        | some r2 => optChar 's' (optLit ['u', 't', 'e'] r2)
        | none => r)
    else if c = 's' then
      some (.second,
        match tryLit ['e', 'c'] r with
        | some r2 => optChar 's' (optLit ['o', 'n', 'd'] r2)
        | none => r)
    else none

/-- A matched `<number><ws><unit>` token: the exact rational value of its
decimal literal and its unit kind. -/
structure Tok where
  val : ℚ
  unit : TUnit
deriving DecidableEq

/-- One match of `_COMPOUND_RE` at the head of `s`:
`(?P<value>\d+(?:\.\d+)?)\s*(?P<unit>...)` — greedy digits, an optional
fraction kept only when at least one digit follows the dot, greedy
whitespace, then the unit alternation. -/
def tokenScan (s : List Char) : Option (Tok × List Char) :=
  let ds := (s.span Char.isDigit).1
  let rest := (s.span Char.isDigit).2
  if ds.isEmpty then none
  else
    let vr : ℚ × List Char :=
      if rest.head? = some '.' then
        let fs := (rest.tail.span Char.isDigit).1
        let r2 := (rest.tail.span Char.isDigit).2
        if fs.isEmpty then (decimalToRat ds [], rest) else (decimalToRat ds fs, r2)
      else (decimalToRat ds [], rest)
    match unitScan (vr.2.dropWhile isWS) with
    | some (u, rest4) => some (⟨vr.1, u⟩, rest4)
    | none => none

/-- The coverage walk of `_parse_compound` (its `expected_pos` check):
whitespace may separate tokens, every other character must begin a token
exactly where the previous one ended; `finditer` + the gap check reduce to
this left-to-right scan.  Structural fuel (any fuel above the string length
gives the same answer). -/
def scanGo : ℕ → List Char → Option (List Tok)
  | 0, _ => none
  | _ + 1, [] => some []
  | f + 1, c :: rest =>
    if isWS c then scanGo f rest
    else
      match tokenScan (c :: rest) with
      | some (t, rest2) => (scanGo f rest2).map (t :: ·)
      | none => none

/-- All `_COMPOUND_RE` tokens of `s` when they cover `s` exactly. -/
def compoundScan (s : List Char) : Option (List Tok) := scanGo (s.length + 1) s

/-- The float accumulation of `_parse_compound`:
`total += float(value) * multiplier`, left to right, starting from `0.0`. -/
def compoundTotal (toks : List Tok) : ℚ :=
  toks.foldl (fun total t => fadd total (fmul (rnd t.val) ((unitSeconds t.unit : ℕ) : ℚ))) 0

/-- `_parse_compound(raw, sign)` (core.py lines 123-175): scan the lowered
string, demand at least one token and full coverage, then
`sign * int(total)`. -/
def parse_compound (raw : List Char) (sign : ℤ) : Option ℤ :=
  match compoundScan (lowerStr raw) with
  | some toks => if toks.isEmpty then none else some (sign * pyTrunc (compoundTotal toks))
  | none => none

/-! ## The ISO-8601 grammar (`_ISO_RE` and `_parse_iso8601`) -/

/-- The captured groups of `_ISO_RE`:  the optional sign before `P`, and the
day/hour/minute/second values as exact rationals (the hour/minute/second
components may carry their own sign).  The year and month components are
non-capturing in `_ISO_RE` (`(?:\d+Y)?(?:\d+M)?`): they are matched but
yield no group, so they have no field here. -/
structure IsoParts where
  sign : Option Bool
  d : Option ℚ
  h : Option ℚ
  m : Option ℚ
  s : Option ℚ
deriving DecidableEq

/-- `\d+` returning its value. -/
def scanUInt (s : List Char) : Option (ℕ × List Char) :=
  match s.span Char.isDigit with
  | (ds, r) => if ds.isEmpty then none else some (digitsToNat ds, r)

/-- `\d+(\.\d+)?` returning its exact rational value. -/
def scanUDec (s : List Char) : Option (ℚ × List Char) :=
  match s.span Char.isDigit with
  | (ds, r) =>
    if ds.isEmpty then none
    else
      match r with
      | '.' :: r2 =>
        match r2.span Char.isDigit with
        | (fs, r3) => if fs.isEmpty then some (decimalToRat ds [], r) else some (decimalToRat ds fs, r3)
      | _ => some (decimalToRat ds [], r)

/-- `[+-]?\d+(\.\d+)?` returning its exact rational value. -/
def scanSDec (s : List Char) : Option (ℚ × List Char) :=
  match s with
  | '+' :: r => scanUDec r
  | '-' :: r => (scanUDec r).map fun p => (-p.1, p.2)
  | _ => scanUDec s

/-- An optional component `(?:X c)?`: scan `X`, demand the terminator `c`;
on any failure rewind to the original string (the regex skips the optional
group). -/
def tryComp {α : Type} (scan : List Char → Option (α × List Char)) (c : Char)
    (s : List Char) : Option α × List Char :=
  match scan s with
  | some (v, r) =>
    match r with
    | d :: r2 => if d = c then (some v, r2) else (Option.none, s)
    | [] => (Option.none, s)
  | none => (Option.none, s)

/-- Full match of `_ISO_RE` on a lowered string:
`^([+-])?P(?:\d+Y)?(?:\d+M)?((\d+(\.\d+)?)D)?(T([+-]?\d+(\.\d+)?H)?([+-]?\d+(\.\d+)?M)?([+-]?\d+(\.\d+)?S)?)?$`.
Committing each optional component when its terminator letter matches is
faithful: no alternative parse can consume a `...Y`/`...M`/`...D` segment. -/
def isoScan (raw : List Char) : Option IsoParts :=
  let sr : Option Bool × List Char :=
    if raw.head? = some '+' then (some false, raw.tail)
    else if raw.head? = some '-' then (some true, raw.tail)
    else (Option.none, raw)
  if sr.2.head? = some 'p' then
    let r0 := sr.2.tail
    let y := tryComp scanUInt 'y' r0
    let mo := tryComp scanUInt 'm' y.2
    let dd := tryComp scanUDec 'd' mo.2
    if dd.2.isEmpty then some ⟨sr.1, dd.1, Option.none, Option.none, Option.none⟩
    else if dd.2.head? = some 't' then
      let hh := tryComp scanSDec 'h' dd.2.tail
      let mm := tryComp scanSDec 'm' hh.2
      let ss := tryComp scanSDec 's' mm.2
      if ss.2.isEmpty then some ⟨sr.1, dd.1, hh.1, mm.1, ss.1⟩ else none
    else none
  else none

/-- The inner ISO sign replaces the outer sign when present
(core.py lines 105-106). -/
def resolveSign (inner : Option Bool) (outer : ℤ) : ℤ :=
  match inner with
  | some true => -1
  | some false => 1
  | none => outer

/-- The float total of `_parse_iso8601`:
`d*86400 + h*3600 + m*60 + s` evaluated left to right in binary64, each
absent group contributing `float(0)`. -/
def isoTotal (p : IsoParts) : ℚ :=
  fadd
    (fadd (fadd (fmul (rnd (p.d.getD 0)) ((86400 : ℕ) : ℚ)) (fmul (rnd (p.h.getD 0)) ((3600 : ℕ) : ℚ)))
      (fmul (rnd (p.m.getD 0)) ((60 : ℕ) : ℚ)))
    (rnd (p.s.getD 0))

/-- `_parse_iso8601(raw, sign)` (core.py lines 98-120). -/
def parse_iso8601 (raw : List Char) (sign : ℤ) : Option ℤ :=
  (isoScan (lowerStr raw)).map fun p => resolveSign p.sign sign * pyTrunc (isoTotal p)

/-! ## Sign extraction, dispatch, the public `parse_duration` -/

/-- `_extract_sign` (core.py lines 84-95), i.e. `_LEADING_SIGN =
^([+-])\s*(?P<rest>.*)$` followed by `rest.strip()`; `.` does not match a
newline, so the regex fails altogether when a newline survives past the
greedy `\s*`, leaving the sign unextracted. -/
def extract_sign (raw : List Char) : Except PyErr (List Char × ℤ) :=
  match raw with
  | c :: t =>
    if c = '+' ∨ c = '-' then
      let rest := t.dropWhile isWS
      if rest.contains '\n' then Except.ok (raw, 1)
      else
        let raw2 := stripChars rest
        if raw2.isEmpty then Except.error .invalidFormat
        else Except.ok (raw2, if c = '-' then -1 else 1)
    else Except.ok (raw, 1)
  | [] => Except.ok (raw, 1)

/-- `_parse_numeric` (core.py lines 76-81): NaN fails the `v != v` check
with `InvalidValueError`; `int(±inf)` raises the builtin `OverflowError`;
`int(True) = 1`. -/
def parse_numeric (v : PyVal) : Except PyErr ℤ :=
  match v with
  | .int n => .ok n
  | .bool b => .ok (if b then 1 else 0)
  | .float (.finite q) => .ok (pyTrunc q)
  | .float .nan => .error .invalidValue
  | .float .inf => .error .overflow
  | .float .ninf => .error .overflow
  | _ => .error .invalidValue

/-- `parse_duration` (core.py lines 178-230). -/
def parse_duration (v : PyVal) : Except PyErr ℤ :=
  match v with
  | .none => .error .invalidValue
  | .int _ => parse_numeric v
  | .bool _ => parse_numeric v
  | .float _ => parse_numeric v
  | .list => .error .invalidType
  | .str s =>
    let raw := stripChars s
    if raw.isEmpty then .error .invalidValue
    else
      match extract_sign raw with
      | .error e => .error e
      | .ok (raw2, sign) =>
        match parse_iso8601 raw2 sign with
        | some n => .ok n
        | none =>
          match parse_compound raw2 sign with
          | some n => .ok n
          | none => .error .invalidFormat

/-! ## `format_duration` -/

/-- Decimal digits of `n`, most significant first (`str(n)` for a
non-negative int).  Structural fuel; 80 levels cover every `n < 10 ^ 80`,
far beyond any value a theorem touches. -/
def toDigits : ℕ → ℕ → List Char
  | 0, _ => []
  | f + 1, n =>
    if n < 10 then [Char.ofNat (48 + n)]
    else toDigits f (n / 10) ++ [Char.ofNat (48 + n % 10)]

/-- `str(n)` for a non-negative int. -/
def natToChars (n : ℕ) : List Char := toDigits 80 n

/-- The unit suffix `format_duration` appends for each component. -/
def unitChars : TUnit → List Char
  | .year => ['y']
  | .month => ['m', 'o']
  | .week => ['w']
  | .day => ['d']
  | .hour => ['h']
  | .minute => ['m']
  | .second => ['s']

/-- The `parts` list of `format_duration` (core.py lines 256-277): divmod
down the unit table, keep non-zero quotients, and keep the seconds
component when it is non-zero or every other part is zero. -/
def fmtParts (a : ℕ) : List (ℕ × TUnit) :=
  let y := a / 31536000
  let r1 := a % 31536000
  let mo := r1 / 2592000
  let r2 := r1 % 2592000
  let w := r2 / 604800
  let r3 := r2 % 604800
  let d := r3 / 86400
  let r4 := r3 % 86400
  let h := r4 / 3600
  let r5 := r4 % 3600
  let m := r5 / 60
  let s := r5 % 60
  (if y ≠ 0 then [(y, TUnit.year)] else []) ++
    (if mo ≠ 0 then [(mo, TUnit.month)] else []) ++
    (if w ≠ 0 then [(w, TUnit.week)] else []) ++
    (if d ≠ 0 then [(d, TUnit.day)] else []) ++
    (if h ≠ 0 then [(h, TUnit.hour)] else []) ++
    (if m ≠ 0 then [(m, TUnit.minute)] else []) ++
    (if s ≠ 0 ∨ (y = 0 ∧ mo = 0 ∧ w = 0 ∧ d = 0 ∧ h = 0 ∧ m = 0) then [(s, TUnit.second)]
     else [])

/-- Render one part: `f"{q}{unit}"`. -/
def renderPart (p : ℕ × TUnit) : List Char := natToChars p.1 ++ unitChars p.2

/-- Join the rendered parts (`"".join(parts)`). -/
def joinParts (ps : List (ℕ × TUnit)) : List Char :=
  ps.foldr (fun p acc => renderPart p ++ acc) []

/-- The formatted body for `abs(seconds)`. -/
def fmtNat (a : ℕ) : List Char := joinParts (fmtParts a)

/-- `sign_str + body` for an integer number of seconds. -/
def fmtInt (n : ℤ) : List Char := (if n < 0 then ['-'] else []) ++ fmtNat n.natAbs

/-- `format_duration` (core.py lines 233-281): `isinstance(seconds, int)`
admits `int` and `bool` only. -/
def format_duration (v : PyVal) : Except PyErr (List Char) :=
  match v with
  | .int n => .ok (fmtInt n)
  | .bool b => .ok (fmtInt (if b then 1 else 0))
  | _ => .error .invalidType

/-- Character class of the formatter output: digits and the unit letters. -/
def isFmtChar (c : Char) : Bool :=
  c.isDigit || c = 'y' || c = 'm' || c = 'o' || c = 'w' || c = 'd' || c = 'h' || c = 's'

/-! ## Specification-side notions

Declarative descriptions, written from the spec's words, used to state the
claims about the compound grammar and the formatter independently of the
scanners above. -/

/-- The unit words (lowercase) each unit kind of the compound grammar
accepts: the language of the regex alternation
`y(ear)?s? | mo(nth)?s? | w(eek)?s? | d(ay)?s? | h(our)?s? | m(in(ute)?s?)? |
s(ec(ond)?s?)?`, listed per kind.  Every `mo...` word is a month, never a
minute. -/
def unitStrings : TUnit → List (List Char)
  | .year => [['y'], ['y', 's'], ['y', 'e', 'a', 'r'], ['y', 'e', 'a', 'r', 's']]
  | .month => [['m', 'o'], ['m', 'o', 's'], ['m', 'o', 'n', 't', 'h'], ['m', 'o', 'n', 't', 'h', 's']]
  | .week => [['w'], ['w', 's'], ['w', 'e', 'e', 'k'], ['w', 'e', 'e', 'k', 's']]
  | .day => [['d'], ['d', 's'], ['d', 'a', 'y'], ['d', 'a', 'y', 's']]
  | .hour => [['h'], ['h', 's'], ['h', 'o', 'u', 'r'], ['h', 'o', 'u', 'r', 's']]
  | .minute =>
    [['m'], ['m', 'i', 'n'], ['m', 'i', 'n', 's'], ['m', 'i', 'n', 'u', 't', 'e'],
      ['m', 'i', 'n', 'u', 't', 'e', 's']]
  | .second =>
    [['s'], ['s', 'e', 'c'], ['s', 'e', 'c', 's'], ['s', 'e', 'c', 'o', 'n', 'd'],
      ['s', 'e', 'c', 'o', 'n', 'd', 's']]

/-- `cs` is a decimal number literal (`\d+(\.\d+)?`) of value `q`. -/
inductive ValueLit : List Char → ℚ → Prop where
  | intLit (ds : List Char) :
      ds ≠ [] → (∀ c ∈ ds, c.isDigit) → ValueLit ds ((digitsToNat ds : ℕ) : ℚ)
  | fracLit (ds fs : List Char) :
      ds ≠ [] → (∀ c ∈ ds, c.isDigit) → fs ≠ [] → (∀ c ∈ fs, c.isDigit) →
      ValueLit (ds ++ '.' :: fs) (decimalToRat ds fs)

/-- The spec's coverage condition for the compound grammar: the (lowered)
string is a sequence of `<number><ws><unit-word>` tokens separated only by
whitespace, with nothing left over. -/
inductive Covers : List Char → List Tok → Prop where
  | nil : Covers [] []
  | ws (c : Char) (s : List Char) (toks : List Tok) :
      isWS c → Covers s toks → Covers (c :: s) toks
  | tok (vcs w ucs rest : List Char) (q : ℚ) (u : TUnit) (toks : List Tok) :
      ValueLit vcs q → (∀ c ∈ w, isWS c) → ucs ∈ unitStrings u → Covers rest toks →
      Covers (vcs ++ (w ++ (ucs ++ rest))) (⟨q, u⟩ :: toks)

/-- A list of (magnitude, unit) parts as exact tokens. -/
def toksOfParts (ps : List (ℕ × TUnit)) : List Tok :=
  ps.map fun p => ⟨((p.1 : ℕ) : ℚ), p.2⟩

/-- The exact (unrounded) sum of `magnitude * multiplier` over the parts. -/
def specSumNat (ps : List (ℕ × TUnit)) : ℕ :=
  (ps.map fun p => p.1 * unitSeconds p.2).sum

/-- The exact (unrounded) sum of `magnitude * multiplier` over tokens, as
claim C6 words it. -/
def specSum (toks : List Tok) : ℚ :=
  (toks.map fun t => t.val * ((unitSeconds t.unit : ℕ) : ℚ)).sum

/-- The descending unit table of the spec's formatter description
(§4.5: `[year, month, week, day, hour, minute, second]`). -/
def specUnitTable : List (ℕ × TUnit) :=
  [(31536000, .year), (2592000, .month), (604800, .week), (86400, .day), (3600, .hour),
    (60, .minute), (1, .second)]

/-- Successive floor-division down the table, the remainder feeding the next
smaller unit. -/
def specQuotients : ℕ → List (ℕ × TUnit) → List (ℕ × TUnit)
  | _, [] => []
  | a, (m, u) :: rest => (a / m, u) :: specQuotients (a % m) rest

/-- `formatDurationSpec`: the formatter exactly as claim C7 words it — a
strict integer type gate; record the sign and take the absolute value;
successive floor-division down the descending unit table; one token per
non-zero quotient in descending order with no separators; `0s` when every
quotient is zero; a `-` prefix exactly when the input is negative. -/
def formatDurationSpec (n : ℤ) : List Char :=
  let qs := specQuotients n.natAbs specUnitTable
  let parts := qs.filter fun p => p.1 ≠ 0
  let parts := if parts.isEmpty then [((0 : ℕ), TUnit.second)] else parts
  (if n < 0 then ['-'] else []) ++ joinParts parts

/-! ## Shared helper lemmas -/

theorem pyTrunc_intCast (n : ℤ) : pyTrunc (n : ℚ) = n := by
  simp [pyTrunc, Rat.num_intCast, Rat.den_intCast]

theorem pyTrunc_neg (q : ℚ) : pyTrunc (-q) = -pyTrunc q := by
  simp [pyTrunc, Rat.neg_num, Rat.neg_den, Int.neg_tdiv]

theorem pyTrunc_nonneg_eq_floor (q : ℚ) (h : 0 ≤ q) : pyTrunc q = ⌊q⌋ := by
  rw [pyTrunc, Rat.floor_def, Int.tdiv_eq_ediv (Rat.num_nonneg.2 h) (Int.ofNat_nonneg _)]

/-! ## Scanner metatheory: the greedy scanners against the declarative grammar -/

/-- `tryLit` succeeds exactly on strings extending the literal. -/
theorem tryLit_some_iff (lit : List Char) :
    ∀ s r, tryLit lit s = some r ↔ s = lit ++ r := by
  induction lit with
  | nil =>
    intro s r
    simp [tryLit, eq_comm]
  | cons c cs ih =>
    intro s r
    cases s with
    | nil => simp [tryLit]
    | cons d ds =>
      by_cases h : d = c
      · subst h
        simp [tryLit, ih]
      · simp [tryLit, h, Ne.symm h]
      
/-- Every unit word is nonempty and starts with a lowercase letter (not a
digit, not whitespace, not a dot, not a sign). -/
theorem unit_head (u : TUnit) (ucs : List Char) (hu : ucs ∈ unitStrings u) :
    ∃ c cs, ucs = c :: cs ∧ ¬c.isDigit ∧ isWS c = false ∧ c ≠ '.' := by
  cases u <;> simp only [unitStrings, List.mem_cons, List.mem_singleton, List.not_mem_nil,
    or_false] at hu <;>
    rcases hu with rfl | rfl | rfl | rfl | rfl <;> exact ⟨_, _, rfl, by decide, by decide, by decide⟩

/-- A digit or whitespace character is never a letter of a unit word. -/
theorem bnd_ne {c : Char} (hc : c.isDigit = true ∨ isWS c = true) (d : Char)
    (hd : ¬(d.isDigit = true ∨ isWS d = true)) : c ≠ d := fun h => hd (h ▸ hc)

/-- Greedy unit matching: a unit word followed by a boundary (end of string,
digit, or whitespace) is matched exactly, returning the boundary. -/
theorem unitScan_exact (u : TUnit) (ucs rest : List Char) (hu : ucs ∈ unitStrings u)
    (hrest : rest = [] ∨ ∃ c cs, rest = c :: cs ∧ (c.isDigit = true ∨ isWS c = true)) :
    unitScan (ucs ++ rest) = some (u, rest) := by
  rcases hrest with rfl | ⟨c, cs, rfl, hc⟩
  · cases u <;> simp only [unitStrings, List.mem_cons, List.mem_singleton, List.not_mem_nil,
      or_false] at hu <;>
      rcases hu with rfl | rfl | rfl | rfl | rfl <;>
        simp [unitScan, optLit, tryLit, optChar]
  · have h1 := bnd_ne hc 'e' (by decide)
    have h2 := bnd_ne hc 'a' (by decide)
    have h3 := bnd_ne hc 'r' (by decide)
    have h4 := bnd_ne hc 's' (by decide)
    have h5 := bnd_ne hc 'o' (by decide)
    have h6 := bnd_ne hc 'n' (by decide)
    have h7 := bnd_ne hc 't' (by decide)
    have h8 := bnd_ne hc 'h' (by decide)
    have h9 := bnd_ne hc 'u' (by decide)
    have h10 := bnd_ne hc 'i' (by decide)
    have h11 := bnd_ne hc 'c' (by decide)
    have h12 := bnd_ne hc 'k' (by decide)
    have h13 := bnd_ne hc 'y' (by decide)
    have h14 := bnd_ne hc 'd' (by decide)
    have h15 := bnd_ne hc 'w' (by decide)
    have h16 := bnd_ne hc 'm' (by decide)
    cases u <;> simp only [unitStrings, List.mem_cons, List.mem_singleton, List.not_mem_nil,
      or_false] at hu <;>
      rcases hu with rfl | rfl | rfl | rfl | rfl <;>
        simp [unitScan, optLit, tryLit, optChar, h1, h2, h3, h4, h5, h6, h7, h8, h9, h10,
          h11, h12, h13, h14, h15, h16]


theorem ws_not_digit {c : Char} (h : isWS c = true) : c.isDigit = false := by
  simp only [isWS, Bool.or_eq_true, decide_eq_true_eq] at h
  rcases h with ((((rfl | rfl) | rfl) | rfl) | rfl) | rfl <;> rfl

theorem optLit_eq (lit s : List Char) : optLit lit s = s ∨ s = lit ++ optLit lit s := by
  unfold optLit
  cases h : tryLit lit s with
  | none => simp
  | some r => exact Or.inr (by simpa using (tryLit_some_iff lit s r).1 h)

theorem optChar_eq (c : Char) (s : List Char) : optChar c s = s ∨ s = c :: optChar c s := by
  cases s with
  | nil => simp [optChar]
  | cons d ds =>
    by_cases h : d = c
    · subst h
      simp [optChar]
    · simp [optChar, h]

/-- Decompose `optChar c2 (optLit lit s)`: the consumed prefix is one of
nothing, `c2`, `lit`, `lit ++ [c2]`. -/
theorem optChar_optLit (lit : List Char) (c2 : Char) (s : List Char) :
    ∃ mid, s = mid ++ optChar c2 (optLit lit s) ∧
      (mid = [] ∨ mid = [c2] ∨ mid = lit ∨ mid = lit ++ [c2]) := by
  rcases optLit_eq lit s with h1 | h1
  · rcases optChar_eq c2 (optLit lit s) with h2 | h2
    · exact ⟨[], by rw [List.nil_append, h2, h1], Or.inl rfl⟩
    · refine ⟨[c2], ?_, Or.inr (Or.inl rfl)⟩
      rw [List.singleton_append, ← h2, h1]
  · rcases optChar_eq c2 (optLit lit s) with h2 | h2
    · exact ⟨lit, by rw [h2]; exact h1, Or.inr (Or.inr (Or.inl rfl))⟩
    · refine ⟨lit ++ [c2], ?_, Or.inr (Or.inr (Or.inr rfl))⟩
      rw [List.append_assoc, List.singleton_append, ← h2]
      exact h1

/-- Soundness of greedy unit matching: a successful `unitScan` splits the
input into a valid unit word and the rest. -/
theorem unitScan_sound (s r : List Char) (u : TUnit) (h : unitScan s = some (u, r)) :
    ∃ ucs, s = ucs ++ r ∧ ucs ∈ unitStrings u := by
  cases s with
  | nil => simp [unitScan] at h
  | cons c rest =>
    simp only [unitScan] at h
    split_ifs at h with hy hmo hw hd hh hm hs
    · obtain ⟨rfl, rfl⟩ : TUnit.year = u ∧ optChar 's' (optLit ['e', 'a', 'r'] rest) = r := by
        simpa using h
      subst hy
      obtain ⟨mid, hsplit, hmid⟩ := optChar_optLit ['e', 'a', 'r'] 's' rest
      refine ⟨'y' :: mid, by rw [List.cons_append, ← hsplit], ?_⟩
      rcases hmid with rfl | rfl | rfl | rfl <;> simp [unitStrings]
    · obtain ⟨rfl, ho⟩ := hmo
      obtain ⟨o, rest', rfl⟩ : ∃ o rest', rest = o :: rest' := by
        cases rest with
        | nil => simp at ho
        | cons a b => exact ⟨a, b, rfl⟩
      obtain rfl : o = 'o' := by simpa using ho
      obtain ⟨rfl, rfl⟩ : TUnit.month = u ∧ optChar 's' (optLit ['n', 't', 'h'] rest') = r := by
        simpa using h
      obtain ⟨mid, hsplit, hmid⟩ := optChar_optLit ['n', 't', 'h'] 's' rest'
      refine ⟨'m' :: 'o' :: mid, by simp only [List.cons_append]; rw [← hsplit], ?_⟩
      rcases hmid with rfl | rfl | rfl | rfl <;> simp [unitStrings]
    · obtain ⟨rfl, rfl⟩ : TUnit.week = u ∧ optChar 's' (optLit ['e', 'e', 'k'] rest) = r := by
        simpa using h
      subst hw
      obtain ⟨mid, hsplit, hmid⟩ := optChar_optLit ['e', 'e', 'k'] 's' rest
      refine ⟨'w' :: mid, by rw [List.cons_append, ← hsplit], ?_⟩
      rcases hmid with rfl | rfl | rfl | rfl <;> simp [unitStrings]
    · obtain ⟨rfl, rfl⟩ : TUnit.day = u ∧ optChar 's' (optLit ['a', 'y'] rest) = r := by
        simpa using h
      subst hd
      obtain ⟨mid, hsplit, hmid⟩ := optChar_optLit ['a', 'y'] 's' rest
      refine ⟨'d' :: mid, by rw [List.cons_append, ← hsplit], ?_⟩
      rcases hmid with rfl | rfl | rfl | rfl <;> simp [unitStrings]
    · obtain ⟨rfl, rfl⟩ : TUnit.hour = u ∧ optChar 's' (optLit ['o', 'u', 'r'] rest) = r := by
        simpa using h
      subst hh
      obtain ⟨mid, hsplit, hmid⟩ := optChar_optLit ['o', 'u', 'r'] 's' rest
      refine ⟨'h' :: mid, by rw [List.cons_append, ← hsplit], ?_⟩
      rcases hmid with rfl | rfl | rfl | rfl <;> simp [unitStrings]
    · subst hm
      cases htl : tryLit ['i', 'n'] rest with
      | none =>
        obtain ⟨rfl, rfl⟩ : TUnit.minute = u ∧ rest = r := by
          rw [htl] at h
          simpa using h
        exact ⟨['m'], rfl, by simp [unitStrings]⟩
      | some r2 =>
        obtain rfl := (tryLit_some_iff ['i', 'n'] rest r2).1 htl
        obtain ⟨rfl, rfl⟩ : TUnit.minute = u ∧ optChar 's' (optLit ['u', 't', 'e'] r2) = r := by
          rw [htl] at h
          simpa using h
        obtain ⟨mid, hsplit, hmid⟩ := optChar_optLit ['u', 't', 'e'] 's' r2
        refine ⟨'m' :: 'i' :: 'n' :: mid, ?_, ?_⟩
        · simp only [List.cons_append, List.append_assoc, List.nil_append]
          rw [← hsplit]
        · rcases hmid with rfl | rfl | rfl | rfl <;> simp [unitStrings]
    · subst hs
      cases htl : tryLit ['e', 'c'] rest with
      | none =>
        obtain ⟨rfl, rfl⟩ : TUnit.second = u ∧ rest = r := by
          rw [htl] at h
          simpa using h
        exact ⟨['s'], rfl, by simp [unitStrings]⟩
      | some r2 =>
        obtain rfl := (tryLit_some_iff ['e', 'c'] rest r2).1 htl
        obtain ⟨rfl, rfl⟩ : TUnit.second = u ∧ optChar 's' (optLit ['o', 'n', 'd'] r2) = r := by
          rw [htl] at h
          simpa using h
        obtain ⟨mid, hsplit, hmid⟩ := optChar_optLit ['o', 'n', 'd'] 's' r2
        refine ⟨'s' :: 'e' :: 'c' :: mid, ?_, ?_⟩
        · simp only [List.cons_append, List.append_assoc, List.nil_append]
          rw [← hsplit]
        · rcases hmid with rfl | rfl | rfl | rfl <;> simp [unitStrings]

theorem ws_ne_dot {c : Char} (h : isWS c = true) : c ≠ '.' := by
  simp only [isWS, Bool.or_eq_true, decide_eq_true_eq] at h
  rcases h with ((((rfl | rfl) | rfl) | rfl) | rfl) | rfl <;> decide

theorem takeWhile_digits_append (ds r : List Char) (hds : ∀ c ∈ ds, c.isDigit = true)
    (hr : r = [] ∨ ∃ c cs, r = c :: cs ∧ c.isDigit = false) :
    (ds ++ r).takeWhile Char.isDigit = ds := by
  rw [List.takeWhile_append_of_pos hds]
  rcases hr with rfl | ⟨c, cs, rfl, hc⟩
  · simp
  · simp [List.takeWhile_cons, hc]

theorem dropWhile_digits_append (ds r : List Char) (hds : ∀ c ∈ ds, c.isDigit = true)
    (hr : r = [] ∨ ∃ c cs, r = c :: cs ∧ c.isDigit = false) :
    (ds ++ r).dropWhile Char.isDigit = r := by
  rw [List.dropWhile_append_of_pos hds]
  rcases hr with rfl | ⟨c, cs, rfl, hc⟩
  · simp
  · simp [List.dropWhile_cons, hc]

theorem span_digits_append (ds r : List Char) (hds : ∀ c ∈ ds, c.isDigit = true)
    (hr : r = [] ∨ ∃ c cs, r = c :: cs ∧ c.isDigit = false) :
    (ds ++ r).span Char.isDigit = (ds, r) := by
  rw [List.span_eq_take_drop, takeWhile_digits_append ds r hds hr,
    dropWhile_digits_append ds r hds hr]

theorem dropWhile_ws_append (w x : List Char) (hw : ∀ c ∈ w, isWS c = true)
    (hx : x = [] ∨ ∃ c cs, x = c :: cs ∧ isWS c = false) :
    (w ++ x).dropWhile isWS = x := by
  rw [List.dropWhile_append_of_pos hw]
  rcases hx with rfl | ⟨c, cs, rfl, hc⟩
  · simp
  · simp [List.dropWhile_cons, hc]

theorem digitsToNat_nil : digitsToNat [] = 0 := rfl

/-- Destructor for `ValueLit` keeping the split explicit. -/
theorem ValueLit_elim {vcs : List Char} {q : ℚ} (hv : ValueLit vcs q) :
    (∃ ds, vcs = ds ∧ ds ≠ [] ∧ (∀ c ∈ ds, c.isDigit = true) ∧
      q = ((digitsToNat ds : ℕ) : ℚ)) ∨
    (∃ ds fs, vcs = ds ++ '.' :: fs ∧ ds ≠ [] ∧ (∀ c ∈ ds, c.isDigit = true) ∧ fs ≠ [] ∧
      (∀ c ∈ fs, c.isDigit = true) ∧ q = decimalToRat ds fs) :=
  match hv with
  | .intLit ds h1 h2 => Or.inl ⟨ds, rfl, h1, h2, rfl⟩
  | .fracLit ds fs h1 h2 h3 h4 => Or.inr ⟨ds, fs, rfl, h1, h2, h3, h4, rfl⟩

theorem decimalToRat_nil (ds : List Char) : decimalToRat ds [] = ((digitsToNat ds : ℕ) : ℚ) := by
  simp [decimalToRat, digitsToNat_nil]

/-- Greedy token matching: a decimal literal, whitespace, a unit word and a
boundary are matched exactly. -/
theorem tokenScan_exact (vcs w ucs rest : List Char) (q : ℚ) (u : TUnit)
    (hv : ValueLit vcs q) (hw : ∀ c ∈ w, isWS c = true) (hu : ucs ∈ unitStrings u)
    (hrest : rest = [] ∨ ∃ c cs, rest = c :: cs ∧ (c.isDigit = true ∨ isWS c = true)) :
    tokenScan (vcs ++ (w ++ (ucs ++ rest))) = some (⟨q, u⟩, rest) := by
  obtain ⟨uc, ucs', rfl, hud, huw, hup⟩ := unit_head u ucs hu
  have hThead : ∃ c cs, w ++ ((uc :: ucs') ++ rest) = c :: cs ∧ c.isDigit = false ∧ c ≠ '.' := by
    cases w with
    | nil => exact ⟨uc, ucs' ++ rest, rfl, by simpa using hud, hup⟩
    | cons wc w' =>
      have hwc : isWS wc := hw wc (by simp)
      exact ⟨wc, w' ++ ((uc :: ucs') ++ rest), rfl, ws_not_digit hwc, ws_ne_dot hwc⟩
  have hdropT : (w ++ ((uc :: ucs') ++ rest)).dropWhile isWS = (uc :: ucs') ++ rest :=
    dropWhile_ws_append _ _ hw (Or.inr ⟨uc, ucs' ++ rest, rfl, huw⟩)
  have hunit : unitScan ((uc :: ucs') ++ rest) = some (u, rest) :=
    unitScan_exact u _ rest hu hrest
  obtain ⟨hc, hcs, hThead_eq, hTd, hTdot⟩ := hThead
  rcases ValueLit_elim hv with ⟨ds, rfl, hne, hds, rfl⟩ | ⟨ds, fs, rfl, hne, hds, hfne, hfs, rfl⟩
  · have hspan : (vcs ++ (w ++ ((uc :: ucs') ++ rest))).span Char.isDigit =
        (vcs, w ++ ((uc :: ucs') ++ rest)) :=
      span_digits_append vcs _ hds (Or.inr ⟨hc, hcs, hThead_eq, hTd⟩)
    have hdot : (w ++ ((uc :: ucs') ++ rest)).head? ≠ some '.' := by
      rw [hThead_eq]
      simpa using hTdot
    unfold tokenScan
    rw [hspan]
    simp only [List.isEmpty_eq_true, hne, if_false, if_neg hdot, hdropT, hunit,
      decimalToRat_nil]
  · have hassoc : (ds ++ '.' :: fs) ++ (w ++ ((uc :: ucs') ++ rest)) =
        ds ++ ('.' :: (fs ++ (w ++ ((uc :: ucs') ++ rest)))) := by
      simp
    have hspan : (ds ++ ('.' :: (fs ++ (w ++ ((uc :: ucs') ++ rest))))).span Char.isDigit =
        (ds, '.' :: (fs ++ (w ++ ((uc :: ucs') ++ rest)))) :=
      span_digits_append ds _ hds (Or.inr ⟨'.', _, rfl, by decide⟩)
    have htake2 : (fs ++ (w ++ ((uc :: ucs') ++ rest))).takeWhile Char.isDigit = fs :=
      takeWhile_digits_append fs _ hfs (Or.inr ⟨hc, hcs, hThead_eq, hTd⟩)
    have hdrop2 : (fs ++ (w ++ ((uc :: ucs') ++ rest))).dropWhile Char.isDigit =
        w ++ ((uc :: ucs') ++ rest) :=
      dropWhile_digits_append fs _ hfs (Or.inr ⟨hc, hcs, hThead_eq, hTd⟩)
    unfold tokenScan
    rw [hassoc, hspan]
    simp only [List.isEmpty_eq_true, hne, if_false, List.head?_cons, Option.some.injEq,
      eq_self_iff_true, if_true, List.tail_cons, List.span_eq_take_drop, htake2, hdrop2,
      hfne, hdropT, hunit]

/-- Soundness of `tokenScan`: a successful match decomposes the input into
literal, whitespace, unit word and rest. -/
theorem tokenScan_sound (s r : List Char) (t : Tok) (h : tokenScan s = some (t, r)) :
    ∃ vcs w ucs, s = vcs ++ (w ++ (ucs ++ r)) ∧ ValueLit vcs t.val ∧
      (∀ c ∈ w, isWS c = true) ∧ ucs ∈ unitStrings t.unit := by
  obtain ⟨ds, hds⟩ : ∃ x, s.takeWhile Char.isDigit = x := ⟨_, rfl⟩
  obtain ⟨dr, hdr⟩ : ∃ x, s.dropWhile Char.isDigit = x := ⟨_, rfl⟩
  have hs_split : s = ds ++ dr := by rw [← hds, ← hdr, List.takeWhile_append_dropWhile]
  have hds_dig : ∀ c ∈ ds, c.isDigit = true := fun c hc => List.mem_takeWhile_imp (hds ▸ hc)
  unfold tokenScan at h
  rw [List.span_eq_take_drop] at h
  simp only [hds, hdr] at h
  by_cases hni : ds.isEmpty
  · rw [if_pos hni] at h
    cases h
  · rw [if_neg hni] at h
    have hne : ds ≠ [] := by simpa [List.isEmpty_eq_true] using hni
    by_cases hdot : dr.head? = some '.'
    · obtain ⟨rest', rfl⟩ : ∃ rest', dr = '.' :: rest' := by
        cases hcase : dr with
        | nil => rw [hcase] at hdot; cases hdot
        | cons a b =>
          rw [hcase] at hdot
          simp at hdot
          exact ⟨b, by rw [hdot]⟩
      rw [if_pos hdot] at h
      obtain ⟨fs, hfs⟩ : ∃ x, rest'.takeWhile Char.isDigit = x := ⟨_, rfl⟩
      obtain ⟨fr, hfr⟩ : ∃ x, rest'.dropWhile Char.isDigit = x := ⟨_, rfl⟩
      have hrest_split : rest' = fs ++ fr := by
        rw [← hfs, ← hfr, List.takeWhile_append_dropWhile]
      have hfs_dig : ∀ c ∈ fs, c.isDigit = true := fun c hc =>
        List.mem_takeWhile_imp (hfs ▸ hc)
      simp only [List.tail_cons, List.span_eq_take_drop, hfs, hfr] at h
      by_cases hfe : fs.isEmpty
      · rw [if_pos hfe] at h
        simp only at h
        have hdw : List.dropWhile isWS ('.' :: rest') = '.' :: rest' := by
          simp [List.dropWhile_cons, isWS]
        rw [hdw] at h
        have hun : unitScan ('.' :: rest') = none := by simp [unitScan]
        rw [hun] at h
        cases h
      · rw [if_neg hfe] at h
        simp only at h
        have hfne : fs ≠ [] := by simpa [List.isEmpty_eq_true] using hfe
        obtain ⟨w', hw'⟩ : ∃ x, fr.takeWhile isWS = x := ⟨_, rfl⟩
        obtain ⟨fx, hfx⟩ : ∃ x, fr.dropWhile isWS = x := ⟨_, rfl⟩
        have hfr_split : fr = w' ++ fx := by
          rw [← hw', ← hfx, List.takeWhile_append_dropWhile]
        have hw'_ws : ∀ c ∈ w', isWS c = true := fun c hc =>
          List.mem_takeWhile_imp (hw' ▸ hc)
        rw [hfx] at h
        cases hux : unitScan fx with
        | none => rw [hux] at h; cases h
        | some pr =>
          obtain ⟨u, r4⟩ := pr
          rw [hux] at h
          simp only [Option.some.injEq, Prod.mk.injEq] at h
          obtain ⟨ht, rfl⟩ := h
          obtain ⟨ucs, hucs_split, hucs_mem⟩ := unitScan_sound _ _ _ hux
          refine ⟨ds ++ '.' :: fs, w', ucs, ?_, ?_, hw'_ws, ?_⟩
          · rw [hs_split, hrest_split, hfr_split, hucs_split]
            simp [List.append_assoc]
          · rw [← ht]
            exact ValueLit.fracLit _ _ hne hds_dig hfne hfs_dig
          · rw [← ht]
            exact hucs_mem
    · rw [if_neg hdot] at h
      simp only at h
      obtain ⟨w', hw'⟩ : ∃ x, dr.takeWhile isWS = x := ⟨_, rfl⟩
      obtain ⟨fx, hfx⟩ : ∃ x, dr.dropWhile isWS = x := ⟨_, rfl⟩
      have hdr_split : dr = w' ++ fx := by
        rw [← hw', ← hfx, List.takeWhile_append_dropWhile]
      have hw'_ws : ∀ c ∈ w', isWS c = true := fun c hc =>
        List.mem_takeWhile_imp (hw' ▸ hc)
      rw [hfx] at h
      cases hux : unitScan fx with
      | none => rw [hux] at h; cases h
      | some pr =>
        obtain ⟨u, r4⟩ := pr
        rw [hux] at h
        simp only [Option.some.injEq, Prod.mk.injEq] at h
        obtain ⟨ht, rfl⟩ := h
        obtain ⟨ucs, hucs_split, hucs_mem⟩ := unitScan_sound _ _ _ hux
        refine ⟨ds, w', ucs, ?_, ?_, hw'_ws, ?_⟩
        · rw [hs_split, hdr_split, hucs_split]
        · rw [← ht]
          simpa [decimalToRat_nil] using ValueLit.intLit _ hne hds_dig
        · rw [← ht]
          exact hucs_mem


/-- Every decimal literal starts with a digit. -/
theorem ValueLit_head {vcs : List Char} {q : ℚ} (hv : ValueLit vcs q) :
    ∃ c cs, vcs = c :: cs ∧ c.isDigit = true := by
  rcases ValueLit_elim hv with ⟨ds, rfl, hne, hds, _⟩ | ⟨ds, fs, rfl, hne, hds, _, _, _⟩
  · cases vcs with
    | nil => exact absurd rfl hne
    | cons c cs => exact ⟨c, cs, rfl, hds c (by simp)⟩
  · cases ds with
    | nil => exact absurd rfl hne
    | cons c cs => exact ⟨c, cs ++ '.' :: fs, by simp, hds c (by simp)⟩

/-- A covered string is empty or starts with a digit or whitespace. -/
theorem covers_head {s : List Char} {toks : List Tok} (h : Covers s toks) :
    s = [] ∨ ∃ c cs, s = c :: cs ∧ (c.isDigit = true ∨ isWS c = true) := by
  cases h with
  | nil => exact Or.inl rfl
  | ws c s toks hws _ => exact Or.inr ⟨c, s, rfl, Or.inr hws⟩
  | tok vcs w ucs rest q u toks hv _ _ _ =>
    obtain ⟨c, cs, rfl, hcd⟩ := ValueLit_head hv
    exact Or.inr ⟨c, cs ++ (w ++ (ucs ++ rest)), by simp, Or.inl hcd⟩

theorem digit_not_ws {c : Char} (h : c.isDigit = true) : isWS c = false := by
  cases hw : isWS c with
  | false => rfl
  | true => rw [ws_not_digit hw] at h; cases h

/-- Completeness: a covering token decomposition is found by the greedy scan,
with any fuel above the string length. -/
theorem scanGo_complete {s : List Char} {toks : List Tok} (h : Covers s toks) :
    ∀ f, s.length < f → scanGo f s = some toks := by
  induction h with
  | nil =>
    intro f hf
    cases f with
    | zero => omega
    | succ f => rfl
  | ws c s toks hws _hcov ih =>
    intro f hf
    cases f with
    | zero => omega
    | succ f =>
      simp only [scanGo, hws, if_true]
      exact ih f (by simpa using hf)
  | tok vcs w ucs rest q u toks hv hw hu _hcov ih =>
    intro f hf
    cases f with
    | zero => omega
    | succ f =>
      obtain ⟨c, cs, rfl, hcd⟩ := ValueLit_head hv
      obtain ⟨uc, ucs', rfl, _, _, _⟩ := unit_head u ucs hu
      have hlen : rest.length < f := by
        simp only [List.length_append, List.length_cons] at hf ⊢
        omega
      have hrest_head := covers_head _hcov
      have htok : tokenScan ((c :: cs) ++ (w ++ ((uc :: ucs') ++ rest))) =
          some (⟨q, u⟩, rest) :=
        tokenScan_exact _ _ _ _ _ _ hv hw hu hrest_head
      simp only [List.cons_append] at htok ⊢
      simp only [scanGo, digit_not_ws hcd, Bool.false_eq_true, if_false]
      rw [htok]
      simp [ih f hlen]

/-- Soundness: a successful greedy scan yields a covering decomposition. -/
theorem scanGo_sound : ∀ (f : ℕ) (s : List Char) (toks : List Tok),
    scanGo f s = some toks → Covers s toks := by
  intro f
  induction f with
  | zero => intro s toks h; cases h
  | succ f ih =>
    intro s toks h
    cases s with
    | nil =>
      injection h with h2
      rw [← h2]
      exact Covers.nil
    | cons c rest =>
      by_cases hws : isWS c
      · simp only [scanGo, hws, if_true] at h
        exact Covers.ws c rest toks hws (ih rest toks h)
      · simp only [scanGo, hws, Bool.false_eq_true, if_false] at h
        cases htk : tokenScan (c :: rest) with
        | none => rw [htk] at h; cases h
        | some pr =>
          obtain ⟨t, r2⟩ := pr
          rw [htk] at h
          replace h : Option.map (fun x => t :: x) (scanGo f r2) = some toks := h
          cases hsg : scanGo f r2 with
          | none =>
            rw [hsg] at h
            simp at h
          | some toks' =>
            rw [hsg] at h
            simp only [Option.map_some', Option.some.injEq] at h
            obtain rfl := h.symm
            obtain ⟨vcs, w, ucs, hsplit, hv, hw, hu⟩ := tokenScan_sound _ _ _ htk
            rw [hsplit]
            exact Covers.tok vcs w ucs r2 t.val t.unit toks' hv hw hu (ih r2 toks' hsg)

/-! ## Exactness of binary64 arithmetic on small integers -/

/-- Correctness of the fueled binary logarithm. -/
theorem log2p_spec : ∀ (f n : ℕ), 0 < n → n < 2 ^ f →
    2 ^ log2p f n ≤ n ∧ n < 2 ^ (log2p f n + 1) := by
  intro f
  induction f with
  | zero =>
    intro n h1 h2
    simp at h2
    omega
  | succ f ih =>
    intro n h1 h2
    by_cases hn : n < 2
    · have : n = 1 := by omega
      subst this
      simp [log2p]
    · simp only [log2p, hn, if_false]
      have h12 : 0 < n / 2 := by omega
      have h22 : n / 2 < 2 ^ f := by
        have hp : 2 ^ (f + 1) = 2 * 2 ^ f := by ring
        omega
      obtain ⟨hl, hr⟩ := ih (n / 2) h12 h22
      have e1 : 2 ^ (log2p f (n / 2) + 1) = 2 * 2 ^ log2p f (n / 2) := by ring
      have e2 : 2 ^ (log2p f (n / 2) + 1 + 1) = 4 * 2 ^ log2p f (n / 2) := by ring
      omega

theorem ratFloorPosNat_natCast (k : ℕ) : ratFloorPosNat (k : ℚ) = k := by
  simp [ratFloorPosNat, Rat.num_natCast, Rat.den_natCast]

theorem qfloorlog2_natCast (k : ℕ) (h1 : 0 < k) :
    qfloorlog2 (k : ℚ) = (log2p 1400 k : ℤ) := by
  unfold qfloorlog2
  rw [if_pos (by exact_mod_cast h1), ratFloorPosNat_natCast]

theorem pow2z_eq (e : ℤ) : pow2z e = (2 : ℚ) ^ e := by
  cases e with
  | ofNat n =>
    show mkRat (2 ^ n) 1 = _
    rw [Rat.mkRat_one, show (Int.ofNat n) = ((n : ℕ) : ℤ) from rfl, zpow_natCast]
    push_cast
    rfl
  | negSucc n =>
    show mkRat 1 (2 ^ (n + 1)) = _
    rw [zpow_negSucc, Rat.mkRat_eq_div]
    push_cast
    rw [one_div]

/-- When the scaled value is an integer there is nothing to round. -/
theorem rndPos_exact (q : ℚ) (z : ℤ)
    (hz : q * pow2z (-(qfloorlog2 q - 52)) = (z : ℚ)) : rndPos q = q := by
  unfold rndPos
  simp only [hz, Rat.num_intCast, Rat.den_intCast, Nat.cast_one, Int.fdiv_one, sub_self]
  rw [if_neg (by decide : ¬(mkRat 1 2 < (0 : ℚ))), if_pos (by decide : (0 : ℚ) < mkRat 1 2)]
  rw [← hz, pow2z_eq, pow2z_eq]
  have hne : ((2 : ℚ)) ^ (qfloorlog2 q - 52) ≠ 0 := zpow_ne_zero _ (by norm_num)
  rw [zpow_neg]
  field_simp

/-- Integers up to `2 ^ 53` are exactly representable: rounding is identity. -/
theorem rnd_natCast (k : ℕ) (hk : k ≤ 2 ^ 53) : rnd (k : ℚ) = k := by
  rcases Nat.eq_zero_or_pos k with rfl | hk0
  · simp [rnd]
  · have hq0 : (0 : ℚ) < k := by exact_mod_cast hk0
    unfold rnd
    rw [if_neg (by exact_mod_cast hk0.ne'), if_neg (by exact_mod_cast not_lt.2 hq0.le)]
    have hL := qfloorlog2_natCast k hk0
    have hspec := log2p_spec 1400 k hk0 (by
      calc k ≤ 2 ^ 53 := hk
      _ < 2 ^ 1400 := by norm_num)
    set L := log2p 1400 k with hLdef
    by_cases hL52 : L ≤ 52
    · refine rndPos_exact _ ((k * 2 ^ (52 - L) : ℕ) : ℤ) ?_
      rw [hL]
      have he : (-((L : ℤ) - 52)) = ((52 - L : ℕ) : ℤ) := by omega
      rw [he, pow2z_eq, zpow_natCast]
      push_cast
      ring
    · have hle53 : L ≤ 53 := by
        by_contra hgt
        have h1 : (2 : ℕ) ^ 54 ≤ 2 ^ L := Nat.pow_le_pow_right (by norm_num) (by omega)
        have h2 : (2 : ℕ) ^ L ≤ k := hspec.1
        have h3 : (2 : ℕ) ^ 53 < 2 ^ 54 := by norm_num
        omega
      have hL53 : L = 53 := by omega
      have hk53 : k = 2 ^ 53 := by
        have h2 : (2 : ℕ) ^ L ≤ k := hspec.1
        rw [hL53] at h2
        omega
      refine rndPos_exact _ ((2 ^ 52 : ℕ) : ℤ) ?_
      rw [hL, hL53, hk53]
      decide

theorem pyTrunc_natCast (k : ℕ) : pyTrunc (k : ℚ) = k := by
  simp [pyTrunc, Rat.num_natCast, Rat.den_natCast]

theorem fadd_natCast (a b : ℕ) (h : a + b ≤ 2 ^ 53) :
    fadd (a : ℚ) (b : ℚ) = ((a + b : ℕ) : ℚ) := by
  unfold fadd
  rw [show ((a : ℚ) + (b : ℚ)) = ((a + b : ℕ) : ℚ) from by push_cast; ring]
  rw [rnd_natCast _ h]

theorem fmul_natCast (a b : ℕ) (h : a * b ≤ 2 ^ 53) :
    fmul (a : ℚ) (b : ℚ) = ((a * b : ℕ) : ℚ) := by
  unfold fmul
  rw [show ((a : ℚ) * (b : ℚ)) = ((a * b : ℕ) : ℚ) from by push_cast; ring]
  rw [rnd_natCast _ h]

/-! ## Digits, character classes and the structure of the formatter output -/


theorem digitsToNat_append_digit (xs : List Char) (c : Char) :
    digitsToNat (xs ++ [c]) = 10 * digitsToNat xs + (c.toNat - 48) := by
  simp [digitsToNat, List.foldl_append]

/-- Fueled decimal printing is correct below `10 ^ (f + 1)`. -/
theorem toDigits_spec : ∀ (f n : ℕ), n < 10 ^ (f + 1) →
    toDigits (f + 1) n ≠ [] ∧ (∀ c ∈ toDigits (f + 1) n, c.isDigit = true) ∧
      digitsToNat (toDigits (f + 1) n) = n := by
  intro f
  induction f with
  | zero =>
    intro n hn
    have h10 : n < 10 := by simpa using hn
    refine ⟨by simp [toDigits, h10], ?_, ?_⟩
    · simp only [toDigits, h10, if_true]
      intro c hc
      simp at hc
      subst hc
      interval_cases n <;> decide
    · simp only [toDigits, h10, if_true]
      show digitsToNat [Char.ofNat (48 + n)] = n
      interval_cases n <;> decide
  | succ f ih =>
    intro n hn
    by_cases h10 : n < 10
    · refine ⟨by simp [toDigits, h10], ?_, ?_⟩
      · simp only [toDigits, h10, if_true]
        intro c hc
        simp at hc
        subst hc
        interval_cases n <;> decide
      · simp only [toDigits, h10, if_true]
        show digitsToNat [Char.ofNat (48 + n)] = n
        interval_cases n <;> decide
    · have hdiv : n / 10 < 10 ^ (f + 1) := by
        have hpow : 10 ^ (f + 1 + 1) = 10 ^ (f + 1) * 10 := by ring
        rw [hpow] at hn
        exact Nat.div_lt_of_lt_mul (by omega)
      obtain ⟨hne, hdig, hval⟩ := ih (n / 10) hdiv
      have hmod : n % 10 < 10 := Nat.mod_lt _ (by norm_num)
      have hmdig : (Char.ofNat (48 + n % 10)).isDigit = true := by
        set m := n % 10 with hm
        interval_cases m <;> decide
      have hmval : (Char.ofNat (48 + n % 10)).toNat - 48 = n % 10 := by
        set m := n % 10 with hm
        interval_cases m <;> decide
      refine ⟨by simp [toDigits, h10], ?_, ?_⟩
      · simp only [toDigits, h10, if_false]
        intro c hc
        rcases List.mem_append.1 hc with hc1 | hc2
        · exact hdig c hc1
        · simp at hc2
          rw [hc2]
          exact hmdig
      · simp only [toDigits, h10, if_false]
        rw [digitsToNat_append_digit]
        rw [show (if n / 10 < 10 then [Char.ofNat (48 + n / 10)]
            else toDigits f (n / 10 / 10) ++ [Char.ofNat (48 + n / 10 % 10)]) =
          toDigits (f + 1) (n / 10) from rfl]
        rw [hval, hmval]
        omega

theorem natToChars_spec (n : ℕ) (hn : n < 10 ^ 80) :
    natToChars n ≠ [] ∧ (∀ c ∈ natToChars n, c.isDigit = true) ∧
      digitsToNat (natToChars n) = n := toDigits_spec 79 n hn

theorem unitChars_mem (u : TUnit) : unitChars u ∈ unitStrings u := by
  cases u <;> decide

/-- The rendered parts list of the formatter is covered by its own tokens. -/
theorem covers_joinParts (ps : List (ℕ × TUnit)) (hps : ∀ p ∈ ps, p.1 < 10 ^ 80) :
    Covers (joinParts ps) (toksOfParts ps) := by
  induction ps with
  | nil => exact Covers.nil
  | cons p ps ih =>
    obtain ⟨hne, hdig, hval⟩ := natToChars_spec p.1 (hps p (by simp))
    have hv : ValueLit (natToChars p.1) ((p.1 : ℕ) : ℚ) := by
      have := ValueLit.intLit (natToChars p.1) hne hdig
      rwa [hval] at this
    have := Covers.tok (natToChars p.1) [] (unitChars p.2) (joinParts ps)
      ((p.1 : ℕ) : ℚ) p.2 (toksOfParts ps) hv (by simp) (unitChars_mem p.2)
      (ih fun q hq => hps q (by simp [hq]))
    simpa [joinParts, renderPart, toksOfParts, List.append_assoc] using this

theorem ite_singleton_sum (c : Prop) [Decidable c] (x : ℕ × TUnit) :
    specSumNat (if c then [x] else []) = if c then x.1 * unitSeconds x.2 else 0 := by
  split_ifs <;> simp [specSumNat]

theorem specSumNat_append (xs ys : List (ℕ × TUnit)) :
    specSumNat (xs ++ ys) = specSumNat xs + specSumNat ys := by
  simp [specSumNat]

theorem ite_collapse (c : Prop) [Decidable c] (v : ℕ) (h : ¬c → v = 0) :
    (if c then v else 0) = v := by
  split_ifs with hc
  · rfl
  · exact (h hc).symm

/-- The exact sum of the formatter's parts reconstructs the input. -/
theorem specSumNat_fmtParts (a : ℕ) : specSumNat (fmtParts a) = a := by
  unfold fmtParts
  rw [specSumNat_append, specSumNat_append, specSumNat_append, specSumNat_append,
    specSumNat_append, specSumNat_append]
  rw [ite_singleton_sum, ite_singleton_sum, ite_singleton_sum, ite_singleton_sum,
    ite_singleton_sum, ite_singleton_sum, ite_singleton_sum]
  rw [ite_collapse _ _ (fun h => by simp at h; simp [h]),
    ite_collapse _ _ (fun h => by simp at h; simp [h]),
    ite_collapse _ _ (fun h => by simp at h; simp [h]),
    ite_collapse _ _ (fun h => by simp at h; simp [h]),
    ite_collapse _ _ (fun h => by simp at h; simp [h]),
    ite_collapse _ _ (fun h => by simp at h; simp [h]),
    ite_collapse _ _ (fun h => by
      push_neg at h
      simp [h.1])]
  have h1 := Nat.div_add_mod a 31536000
  have h2 := Nat.div_add_mod (a % 31536000) 2592000
  have h3 := Nat.div_add_mod (a % 31536000 % 2592000) 604800
  have h4 := Nat.div_add_mod (a % 31536000 % 2592000 % 604800) 86400
  have h5 := Nat.div_add_mod (a % 31536000 % 2592000 % 604800 % 86400) 3600
  have h6 := Nat.div_add_mod (a % 31536000 % 2592000 % 604800 % 86400 % 3600) 60
  simp only [unitSeconds]
  omega


theorem unitSeconds_pos (u : TUnit) : 0 < unitSeconds u := by cases u <;> decide

theorem specSumNat_cons (p : ℕ × TUnit) (ps : List (ℕ × TUnit)) :
    specSumNat (p :: ps) = p.1 * unitSeconds p.2 + specSumNat ps := by
  simp [specSumNat]

/-- The float fold of `_parse_compound` computes the exact sum when every
magnitude is a natural number and the exact total stays within `2 ^ 53`. -/
theorem compoundTotal_go (ps : List (ℕ × TUnit)) :
    ∀ acc : ℕ, acc + specSumNat ps ≤ 2 ^ 53 →
    (toksOfParts ps).foldl
      (fun total t => fadd total (fmul (rnd t.val) ((unitSeconds t.unit : ℕ) : ℚ)))
      ((acc : ℕ) : ℚ) = ((acc + specSumNat ps : ℕ) : ℚ) := by
  induction ps with
  | nil =>
    intro acc _
    simp [toksOfParts, specSumNat]
  | cons p ps ih =>
    intro acc hb
    rw [specSumNat_cons] at hb
    have hcontrib : p.1 * unitSeconds p.2 ≤ 2 ^ 53 := by omega
    have hval : p.1 ≤ 2 ^ 53 :=
      le_trans (Nat.le_mul_of_pos_right _ (unitSeconds_pos p.2)) hcontrib
    simp only [toksOfParts, List.map_cons, List.foldl_cons]
    rw [show rnd ((p.1 : ℕ) : ℚ) = ((p.1 : ℕ) : ℚ) from rnd_natCast _ hval]
    rw [fmul_natCast _ _ hcontrib, fadd_natCast _ _ (by omega)]
    have hrec := ih (acc + p.1 * unitSeconds p.2) (by omega)
    rw [specSumNat_cons,
      show acc + (p.1 * unitSeconds p.2 + specSumNat ps) =
        acc + p.1 * unitSeconds p.2 + specSumNat ps from by omega]
    exact hrec

theorem compoundTotal_parts (ps : List (ℕ × TUnit)) (hb : specSumNat ps ≤ 2 ^ 53) :
    compoundTotal (toksOfParts ps) = ((specSumNat ps : ℕ) : ℚ) := by
  have := compoundTotal_go ps 0 (by omega)
  simpa [compoundTotal] using this

theorem toksOfParts_ne_nil (ps : List (ℕ × TUnit)) (h : ps ≠ []) :
    (toksOfParts ps).isEmpty = false := by
  cases ps with
  | nil => exact absurd rfl h
  | cons p ps => rfl


theorem digit_toNat {c : Char} (h : c.isDigit = true) : 48 ≤ c.toNat ∧ c.toNat ≤ 57 := by
  simp only [Char.isDigit, Bool.and_eq_true, decide_eq_true_eq] at h
  exact h

theorem digit_toLower {c : Char} (h : c.isDigit = true) : c.toLower = c := by
  have hb := digit_toNat h
  simp only [Char.toLower]
  rw [if_neg (by omega)]

theorem digit_ne {c : Char} (h : c.isDigit = true) {d : Char}
    (hd : d.toNat < 48 ∨ 57 < d.toNat) : c ≠ d := by
  have hb := digit_toNat h
  intro hc
  subst hc
  omega

theorem fmtChar_not_ws {c : Char} (h : isFmtChar c = true) : isWS c = false := by
  simp only [isFmtChar, Bool.or_eq_true, decide_eq_true_eq] at h
  rcases h with ((((((h | rfl) | rfl) | rfl) | rfl) | rfl) | rfl) | rfl
  · exact digit_not_ws h
  all_goals rfl

theorem fmtChar_lower {c : Char} (h : isFmtChar c = true) : c.toLower = c := by
  simp only [isFmtChar, Bool.or_eq_true, decide_eq_true_eq] at h
  rcases h with ((((((h | rfl) | rfl) | rfl) | rfl) | rfl) | rfl) | rfl
  · exact digit_toLower h
  all_goals rfl

theorem fmtChar_ne {c : Char} (h : isFmtChar c = true) {d : Char}
    (hd : (d.toNat < 48 ∨ 57 < d.toNat) ∧ d ≠ 'y' ∧ d ≠ 'm' ∧ d ≠ 'o' ∧ d ≠ 'w' ∧
      d ≠ 'd' ∧ d ≠ 'h' ∧ d ≠ 's') : c ≠ d := by
  simp only [isFmtChar, Bool.or_eq_true, decide_eq_true_eq] at h
  rcases h with ((((((h | rfl) | rfl) | rfl) | rfl) | rfl) | rfl) | rfl
  · exact digit_ne h hd.1
  · exact fun hc => hd.2.1 hc.symm
  · exact fun hc => hd.2.2.1 hc.symm
  · exact fun hc => hd.2.2.2.1 hc.symm
  · exact fun hc => hd.2.2.2.2.1 hc.symm
  · exact fun hc => hd.2.2.2.2.2.1 hc.symm
  · exact fun hc => hd.2.2.2.2.2.2.1 hc.symm
  · exact fun hc => hd.2.2.2.2.2.2.2 hc.symm

theorem joinParts_cons (p : ℕ × TUnit) (ps : List (ℕ × TUnit)) :
    joinParts (p :: ps) = renderPart p ++ joinParts ps := rfl

theorem natToChars_fmt {n : ℕ} (hn : n < 10 ^ 80) :
    ∀ c ∈ natToChars n, isFmtChar c = true := by
  intro c hc
  have := (natToChars_spec n hn).2.1 c hc
  simp [isFmtChar, this]

theorem unitChars_fmt (u : TUnit) : ∀ c ∈ unitChars u, isFmtChar c = true := by
  cases u <;> decide

theorem joinParts_fmt (ps : List (ℕ × TUnit)) (hps : ∀ p ∈ ps, p.1 < 10 ^ 80) :
    ∀ c ∈ joinParts ps, isFmtChar c = true := by
  induction ps with
  | nil => intro c hc; cases hc
  | cons p ps ih =>
    intro c hc
    rw [joinParts_cons] at hc
    rcases List.mem_append.mp hc with h | h
    · rcases List.mem_append.mp h with h2 | h2
      · exact natToChars_fmt (hps p (by simp)) c h2
      · exact unitChars_fmt p.2 c h2
    · exact ih (fun q hq => hps q (by simp [hq])) c h

theorem noWS_dropWhile {l : List Char} (h : ∀ c ∈ l, isWS c = false) :
    l.dropWhile isWS = l := by
  cases l with
  | nil => rfl
  | cons c t => simp [List.dropWhile_cons, h c (by simp)]

theorem stripChars_noWS {l : List Char} (h : ∀ c ∈ l, isWS c = false) :
    stripChars l = l := by
  unfold stripChars
  rw [noWS_dropWhile h, noWS_dropWhile (fun c hc => h c (List.mem_reverse.mp hc)),
    List.reverse_reverse]

theorem noMem_contains {l : List Char} {d : Char} (h : d ∉ l) : l.contains d = false := by
  simpa using h

theorem ite_part_nil {P : Prop} [Decidable P] {x : ℕ × TUnit}
    (h : (if P then [x] else []) = ([] : List (ℕ × TUnit))) : ¬P := by
  intro hp
  rw [if_pos hp] at h
  cases h

theorem mem_ite_part {P : Prop} [Decidable P] {x p : ℕ × TUnit}
    (h : p ∈ (if P then [x] else [])) : p = x := by
  by_cases hp : P
  · rw [if_pos hp] at h
    simpa using h
  · rw [if_neg hp] at h
    cases h

theorem fmtParts_ne_nil (a : ℕ) : fmtParts a ≠ [] := by
  intro h
  unfold fmtParts at h
  simp only [List.append_eq_nil] at h
  obtain ⟨⟨⟨⟨⟨⟨hy, hmo⟩, hw⟩, hd⟩, hh⟩, hm⟩, hs⟩ := h
  exact (ite_part_nil hs) (Or.inr ⟨not_not.mp (ite_part_nil hy), not_not.mp (ite_part_nil hmo),
    not_not.mp (ite_part_nil hw), not_not.mp (ite_part_nil hd), not_not.mp (ite_part_nil hh),
    not_not.mp (ite_part_nil hm)⟩)

theorem fmtParts_val_le (a : ℕ) : ∀ p ∈ fmtParts a, p.1 ≤ a := by
  intro p hp
  unfold fmtParts at hp
  simp only [List.mem_append] at hp
  have d1 : a / 31536000 ≤ a := Nat.div_le_self _ _
  have m1 : a % 31536000 ≤ a := Nat.mod_le _ _
  have m2 : a % 31536000 % 2592000 ≤ a % 31536000 := Nat.mod_le _ _
  have m3 : a % 31536000 % 2592000 % 604800 ≤ a % 31536000 % 2592000 := Nat.mod_le _ _
  have m4 : a % 31536000 % 2592000 % 604800 % 86400 ≤ a % 31536000 % 2592000 % 604800 :=
    Nat.mod_le _ _
  have m5 : a % 31536000 % 2592000 % 604800 % 86400 % 3600 ≤
      a % 31536000 % 2592000 % 604800 % 86400 := Nat.mod_le _ _
  rcases hp with (((((h | h) | h) | h) | h) | h) | h
  · obtain rfl := mem_ite_part h
    show a / 31536000 ≤ a
    omega
  · obtain rfl := mem_ite_part h
    show a % 31536000 / 2592000 ≤ a
    have := Nat.div_le_self (a % 31536000) 2592000
    omega
  · obtain rfl := mem_ite_part h
    show a % 31536000 % 2592000 / 604800 ≤ a
    have := Nat.div_le_self (a % 31536000 % 2592000) 604800
    omega
  · obtain rfl := mem_ite_part h
    show a % 31536000 % 2592000 % 604800 / 86400 ≤ a
    have := Nat.div_le_self (a % 31536000 % 2592000 % 604800) 86400
    omega
  · obtain rfl := mem_ite_part h
    show a % 31536000 % 2592000 % 604800 % 86400 / 3600 ≤ a
    have := Nat.div_le_self (a % 31536000 % 2592000 % 604800 % 86400) 3600
    omega
  · obtain rfl := mem_ite_part h
    show a % 31536000 % 2592000 % 604800 % 86400 % 3600 / 60 ≤ a
    have := Nat.div_le_self (a % 31536000 % 2592000 % 604800 % 86400 % 3600) 60
    omega
  · obtain rfl := mem_ite_part h
    show a % 31536000 % 2592000 % 604800 % 86400 % 3600 % 60 ≤ a
    have := Nat.mod_le (a % 31536000 % 2592000 % 604800 % 86400 % 3600) 60
    omega


theorem isEmpty_false_of_ne {l : List Char} (h : l ≠ []) : l.isEmpty = false := by
  cases l with
  | nil => exact absurd rfl h
  | cons c t => rfl

theorem fmtNat_fmt (a : ℕ) (ha : a < 10 ^ 80) : ∀ c ∈ fmtNat a, isFmtChar c = true :=
  joinParts_fmt (fmtParts a) (fun p hp => lt_of_le_of_lt (fmtParts_val_le a p hp) ha)

theorem fmtNat_ne_nil (a : ℕ) (ha : a < 10 ^ 80) : fmtNat a ≠ [] := by
  obtain ⟨p, ps, hps⟩ : ∃ p ps, fmtParts a = p :: ps := by
    cases h : fmtParts a with
    | nil => exact absurd h (fmtParts_ne_nil a)
    | cons p ps => exact ⟨p, ps, rfl⟩
  unfold fmtNat
  rw [hps, joinParts_cons]
  have hne := (natToChars_spec p.1
    (lt_of_le_of_lt (fmtParts_val_le a p (hps ▸ List.mem_cons_self p ps)) ha)).1
  intro h
  rw [List.append_eq_nil] at h
  have h1 := h.1
  unfold renderPart at h1
  exact hne (List.append_eq_nil.mp h1).1

theorem lowerStr_fmt {l : List Char} (h : ∀ c ∈ l, isFmtChar c = true) : lowerStr l = l := by
  induction l with
  | nil => rfl
  | cons c t ih =>
    simp only [lowerStr, List.map_cons]
    rw [fmtChar_lower (h c (by simp))]
    exact congrArg (List.cons c) (ih (fun d hd => h d (by simp [hd])))

theorem extract_sign_fmt {l : List Char} (hne : l ≠ []) (h : ∀ c ∈ l, isFmtChar c = true) :
    extract_sign l = .ok (l, 1) := by
  obtain ⟨c, t, rfl⟩ : ∃ c t, l = c :: t := by
    cases l with
    | nil => exact absurd rfl hne
    | cons c t => exact ⟨c, t, rfl⟩
  have hc := h c (by simp)
  have h1 : c ≠ '+' := fmtChar_ne hc (by decide)
  have h2 : c ≠ '-' := fmtChar_ne hc (by decide)
  simp only [extract_sign]
  rw [if_neg (fun hor => hor.elim h1 h2)]

theorem extract_sign_neg_fmt {l : List Char} (hne : l ≠ []) (h : ∀ c ∈ l, isFmtChar c = true) :
    extract_sign ('-' :: l) = .ok (l, -1) := by
  simp only [extract_sign]
  rw [if_pos (Or.inr trivial)]
  rw [noWS_dropWhile (fun c hc => fmtChar_not_ws (h c hc))]
  rw [noMem_contains (fun hmem => fmtChar_ne (h _ hmem) (by decide) rfl)]
  simp only [Bool.false_eq_true, if_false]
  rw [stripChars_noWS (fun c hc => fmtChar_not_ws (h c hc)), isEmpty_false_of_ne hne]
  simp

theorem isoScan_fmt_none {l : List Char} (hne : l ≠ []) (h : ∀ c ∈ l, isFmtChar c = true) :
    isoScan l = none := by
  obtain ⟨c, t, rfl⟩ : ∃ c t, l = c :: t := by
    cases l with
    | nil => exact absurd rfl hne
    | cons c t => exact ⟨c, t, rfl⟩
  have hc := h c (by simp)
  have h1 : c ≠ '+' := fmtChar_ne hc (by decide)
  have h2 : c ≠ '-' := fmtChar_ne hc (by decide)
  have h3 : c ≠ 'p' := fmtChar_ne hc (by decide)
  simp [isoScan, h1, h2, h3]

/-- `_parse_compound` on a covered token decomposition with integral
magnitudes whose exact weighted sum stays within `2 ^ 53`: the float
accumulation is exact and the result is the signed sum. -/
theorem parse_compound_exact (raw : List Char) (sgn : ℤ) (ps : List (ℕ × TUnit))
    (hcov : Covers (lowerStr raw) (toksOfParts ps)) (hne : ps ≠ [])
    (hb : specSumNat ps ≤ 2 ^ 53) :
    parse_compound raw sgn = some (sgn * (specSumNat ps : ℤ)) := by
  unfold parse_compound
  have hscan : compoundScan (lowerStr raw) = some (toksOfParts ps) :=
    scanGo_complete hcov _ (Nat.lt_succ_self _)
  rw [hscan]
  simp only [toksOfParts_ne_nil ps hne, Bool.false_eq_true, if_false]
  rw [compoundTotal_parts ps hb, pyTrunc_natCast]

theorem parse_compound_fmtNat (a : ℕ) (ha : a ≤ 2 ^ 53) (sgn : ℤ) :
    parse_compound (fmtNat a) sgn = some (sgn * (a : ℤ)) := by
  have h80 : a < 10 ^ 80 := lt_of_le_of_lt ha (by norm_num)
  have hcov : Covers (lowerStr (fmtNat a)) (toksOfParts (fmtParts a)) := by
    rw [lowerStr_fmt (fmtNat_fmt a h80)]
    exact covers_joinParts (fmtParts a)
      (fun p hp => lt_of_le_of_lt (fmtParts_val_le a p hp) h80)
  have := parse_compound_exact (fmtNat a) sgn (fmtParts a) hcov (fmtParts_ne_nil a)
    (by rw [specSumNat_fmtParts]; exact ha)
  rwa [specSumNat_fmtParts] at this

/-- The round trip: `parse_duration(format_duration(n))` returns `n` for
every integer with `|n| ≤ 2 ^ 53`. -/
theorem parse_fmtInt (n : ℤ) (hn : n.natAbs ≤ 2 ^ 53) :
    parse_duration (PyVal.str (fmtInt n)) = .ok n := by
  have h80 : n.natAbs < 10 ^ 80 := lt_of_le_of_lt hn (by norm_num)
  have hfmt := fmtNat_fmt n.natAbs h80
  have hnn := fmtNat_ne_nil n.natAbs h80
  by_cases hneg : n < 0
  · have hfi : fmtInt n = '-' :: fmtNat n.natAbs := by
      unfold fmtInt
      rw [if_pos hneg]
      rfl
    rw [hfi]
    simp only [parse_duration]
    have hall : ∀ c ∈ '-' :: fmtNat n.natAbs, isWS c = false := by
      intro c hc
      rcases List.mem_cons.mp hc with rfl | hc2
      · rfl
      · exact fmtChar_not_ws (hfmt c hc2)
    rw [stripChars_noWS hall, isEmpty_false_of_ne (by simp)]
    simp only [Bool.false_eq_true, if_false]
    rw [extract_sign_neg_fmt hnn hfmt]
    simp only []
    have hiso : parse_iso8601 (fmtNat n.natAbs) (-1) = Option.none := by
      unfold parse_iso8601
      rw [lowerStr_fmt hfmt, isoScan_fmt_none hnn hfmt]
      rfl
    rw [hiso, parse_compound_fmtNat n.natAbs hn (-1)]
    simp only [Except.ok.injEq]
    omega
  · have hfi : fmtInt n = fmtNat n.natAbs := by
      unfold fmtInt
      rw [if_neg hneg]
      rfl
    rw [hfi]
    simp only [parse_duration]
    rw [stripChars_noWS (fun c hc => fmtChar_not_ws (hfmt c hc)), isEmpty_false_of_ne hnn]
    simp only [Bool.false_eq_true, if_false]
    rw [extract_sign_fmt hnn hfmt]
    simp only []
    have hiso : parse_iso8601 (fmtNat n.natAbs) 1 = Option.none := by
      unfold parse_iso8601
      rw [lowerStr_fmt hfmt, isoScan_fmt_none hnn hfmt]
      rfl
    rw [hiso, parse_compound_fmtNat n.natAbs hn 1]
    simp only [Except.ok.injEq]
    omega


/-! ## The claims -/

/-- C9: boolean inputs pass both integer type gates: `parse_duration(True) = 1`,
`parse_duration(False) = 0`, and `format_duration(True) = "1s"` despite the
strict integer type gate, because `isinstance(b, int)` holds for booleans. -/
theorem claim9_bool_passes_int_gate :
    parse_duration (PyVal.bool true) = .ok 1 ∧
    parse_duration (PyVal.bool false) = .ok 0 ∧
    format_duration (PyVal.bool true) = .ok ['1', 's'] := by decide

/-- C10: the degenerate ISO strings "P" and "PT" (and lowercase forms), with
every numeric component absent, are accepted by the ISO matcher and parse to
0 rather than failing with a Format error. -/
theorem claim10_degenerate_iso_parses_to_zero :
    isoScan (lowerStr "P".data) =
      some ⟨Option.none, Option.none, Option.none, Option.none, Option.none⟩ ∧
    parse_duration (PyVal.str "P".data) = .ok 0 ∧
    parse_duration (PyVal.str "PT".data) = .ok 0 ∧
    parse_duration (PyVal.str "p".data) = .ok 0 ∧
    parse_duration (PyVal.str "pt".data) = .ok 0 := by decide

/-- C8: integer input is returned unchanged; finite float input is truncated
toward zero (`pyTrunc` is the floor for non-negative values and is odd, so it
truncates toward zero on both signs: 30.9 ↦ 30 and -30.9 ↦ -30); NaN fails
with a Value error. -/
theorem claim8_numeric_identity_truncation :
    (∀ n : ℤ, parse_duration (PyVal.int n) = .ok n) ∧
    (∀ q : ℚ, parse_duration (PyVal.float (.finite q)) = .ok (pyTrunc q)) ∧
    (∀ q : ℚ, 0 ≤ q → pyTrunc q = ⌊q⌋) ∧
    (∀ q : ℚ, pyTrunc (-q) = -pyTrunc q) ∧
    parse_duration (PyVal.float (.finite (mkRat 309 10))) = .ok 30 ∧
    parse_duration (PyVal.float (.finite (-mkRat 309 10))) = .ok (-30) ∧
    parse_duration (PyVal.float .nan) = .error .invalidValue := by
  refine ⟨fun n => rfl, fun q => rfl, pyTrunc_nonneg_eq_floor, pyTrunc_neg,
    by decide, by decide, rfl⟩

/-- Witness for C8 at the concrete input 30.9. -/
theorem claim8_truncation_witness :
    pyTrunc (mkRat 309 10) = ⌊(mkRat 309 10 : ℚ)⌋ :=
  claim8_numeric_identity_truncation.2.2.1 (mkRat 309 10) (by decide)

/-- C2 counterexample: `parse_duration(float('inf'))` fails with the builtin
Overflow error, whose class is *not* a subclass of the base `DurationError`
category — so not every failure kind is under the single base category, and
a caller catching the base misses this failure. -/
theorem claim2_overflow_escapes_base_cex :
    parse_duration (PyVal.float .inf) = .error .overflow ∧
    isSubclass (classOf .overflow) .durationError = false := by decide

/-- C2 amended: every failure of the two functions is one of the four kinds;
the Format, Type and Value kinds are subclasses of the base `DurationError`,
but the Overflow condition for ±infinity is the builtin `OverflowError`,
outside the base category (and not a `ValueError` either, so it remains
distinct from the Value error kind). -/
theorem claim2_error_taxonomy_amended :
    (∀ v e, parse_duration v = .error e →
      e = .overflow ∨ isSubclass (classOf e) .durationError = true) ∧
    (∀ v e, format_duration v = .error e → isSubclass (classOf e) .durationError = true) ∧
    parse_duration (PyVal.float .inf) = .error .overflow ∧
    parse_duration (PyVal.float .ninf) = .error .overflow ∧
    isSubclass (classOf .overflow) .valueError = false ∧
    isSubclass (classOf .invalidFormat) .durationError = true ∧
    isSubclass (classOf .invalidType) .durationError = true ∧
    isSubclass (classOf .invalidValue) .durationError = true := by
  refine ⟨?_, ?_, by decide, by decide, by decide, by decide, by decide, by decide⟩
  · intro v e _h
    cases e
    · exact Or.inr (by decide)
    · exact Or.inr (by decide)
    · exact Or.inr (by decide)
    · exact Or.inl rfl
  · intro v e h
    cases v <;> simp only [format_duration] at h <;> cases h <;> decide

/-- Witness for C2 at a concrete failing call. -/
theorem claim2_taxonomy_witness :
    PyErr.invalidValue = PyErr.overflow ∨
      isSubclass (classOf .invalidValue) .durationError = true :=
  claim2_error_taxonomy_amended.1 PyVal.none .invalidValue rfl

/-- C3: the extracted leading sign (default +1) multiplies whatever the
matched grammar produces — `parse_compound` and (when the ISO string has no
inner sign) `parse_iso8601` are multiplicative in the outer sign — while an
inner ISO sign immediately before the `P` makes the result independent of
the outer sign (it replaces it). -/
theorem claim3_sign_semantics :
    parse_duration (PyVal.str "-1h30m".data) = .ok (-5400) ∧
    parse_duration (PyVal.str "1h30m".data) = .ok 5400 ∧
    parse_duration (PyVal.str "+5m".data) = .ok 300 ∧
    parse_duration (PyVal.str "5m".data) = .ok 300 ∧
    (∀ raw sgn, parse_compound raw sgn = (parse_compound raw 1).map (sgn * ·)) ∧
    (∀ raw sgn p, isoScan (lowerStr raw) = some p → p.sign = Option.none →
      parse_iso8601 raw sgn = (parse_iso8601 raw 1).map (sgn * ·)) ∧
    (∀ raw sgn sgn' p, isoScan (lowerStr raw) = some p → p.sign ≠ Option.none →
      parse_iso8601 raw sgn = parse_iso8601 raw sgn') := by
  refine ⟨by decide, by decide, by decide, by decide, ?_, ?_, ?_⟩
  · intro raw sgn
    unfold parse_compound
    cases compoundScan (lowerStr raw) with
    | none => rfl
    | some toks =>
      cases h : toks.isEmpty <;> simp [h, Option.map, one_mul]
  · intro raw sgn p hp hs
    unfold parse_iso8601
    rw [hp]
    simp [Option.map, resolveSign, hs, one_mul]
  · intro raw sgn sgn' p hp hs
    unfold parse_iso8601
    rw [hp]
    rcases h : p.sign with _ | b
    · exact absurd h hs
    · cases b <;> simp [resolveSign, h]

/-- Witness for C3: "+PT90S" carries an inner '+' sign, so the outer sign is
irrelevant. -/
theorem claim3_sign_witness :
    parse_iso8601 "+PT90S".data 1 = parse_iso8601 "+PT90S".data (-1) :=
  claim3_sign_semantics.2.2.2.2.2.2 "+PT90S".data 1 (-1)
    ⟨some false, Option.none, Option.none, Option.none, some 90⟩ (by decide) (by decide)

/-- C4: for every ISO-matched string, the result is the resolved sign times
the truncation of the float total `d*86400 + h*3600 + m*60 + s` — a formula
in which the day, hour, minute and second groups alone appear (the year and
month components of `_ISO_RE` are non-capturing and contribute nothing), so
`parse_duration("P1Y") = 0`. -/
theorem claim4_iso_day_time_only :
    (∀ raw sgn p, isoScan (lowerStr raw) = some p →
      parse_iso8601 raw sgn = some (resolveSign p.sign sgn * pyTrunc (isoTotal p))) ∧
    parse_duration (PyVal.str "P1Y".data) = .ok 0 ∧
    parse_duration (PyVal.str "P1Y2M".data) = .ok 0 ∧
    parse_duration (PyVal.str "P2Y3MT90S".data) = .ok 90 ∧
    parse_duration (PyVal.str "P1DT1H1M1.5S".data) = .ok 90061 ∧
    parse_duration (PyVal.str "-PT1.9S".data) = .ok (-1) := by
  refine ⟨?_, by decide, by decide, by decide, by decide, by decide⟩
  intro raw sgn p hp
  unfold parse_iso8601
  rw [hp]
  rfl

/-- The code's formatter body coincides with the spec's description of the
algorithm for every integer. -/
theorem fmtInt_eq_spec (n : ℤ) : fmtInt n = formatDurationSpec n := by
  unfold fmtInt formatDurationSpec
  congr 1
  generalize n.natAbs = a
  show fmtNat a = _
  unfold fmtNat fmtParts specQuotients specUnitTable
  simp only [specQuotients, Nat.div_one]
  by_cases hy : a / 31536000 = 0 <;>
    by_cases hmo : a % 31536000 / 2592000 = 0 <;>
      by_cases hw : a % 31536000 % 2592000 / 604800 = 0 <;>
        by_cases hd : a % 31536000 % 2592000 % 604800 / 86400 = 0 <;>
          by_cases hh : a % 31536000 % 2592000 % 604800 % 86400 / 3600 = 0 <;>
            by_cases hm : a % 31536000 % 2592000 % 604800 % 86400 % 3600 / 60 = 0 <;>
              by_cases hs : a % 31536000 % 2592000 % 604800 % 86400 % 3600 % 60 = 0 <;>
                simp [hy, hmo, hw, hd, hh, hm, hs, List.filter, joinParts]

/-- C7: `format_duration` fails with a Type error on every non-integer input
(floats included, NaN included, strings included), and on integer input it
implements exactly the claim's algorithm `formatDurationSpec`: divmod down
the descending unit table, one token per non-zero quotient in descending
order, `0s` fallback for zero, `-` prefix exactly for negatives. -/
theorem claim7_format_algorithm :
    (∀ n : ℤ, format_duration (PyVal.int n) = .ok (formatDurationSpec n)) ∧
    (∀ q : ℚ, format_duration (PyVal.float (.finite q)) = .error .invalidType) ∧
    format_duration (PyVal.float .nan) = .error .invalidType ∧
    (∀ s : List Char, format_duration (PyVal.str s) = .error .invalidType) ∧
    format_duration PyVal.none = .error .invalidType ∧
    format_duration PyVal.list = .error .invalidType ∧
    format_duration (PyVal.int 0) = .ok ['0', 's'] ∧
    format_duration (PyVal.int (-90)) = .ok ['-', '1', 'm', '3', '0', 's'] := by
  refine ⟨fun n => ?_, fun q => rfl, rfl, fun s => rfl, rfl, rfl, by decide, by decide⟩
  show Except.ok (fmtInt n) = Except.ok (formatDurationSpec n)
  rw [fmtInt_eq_spec]

/-- C5: the compound matcher never returns a partial result — a successful
`parse_compound` implies the (lowered) string is fully covered by tokens and
interstitial whitespace — and a textual input that the ISO matcher rejects
and that no token decomposition covers fails with a Format error; "30" (no
unit), "h" (no number) and "1h x" (stray character) all do. -/
theorem claim5_exhaustive_coverage :
    (∀ raw sgn v, parse_compound raw sgn = some v →
      ∃ toks, toks ≠ [] ∧ Covers (lowerStr raw) toks) ∧
    (∀ (s raw2 : List Char) (sgn : ℤ), stripChars s ≠ [] →
      extract_sign (stripChars s) = .ok (raw2, sgn) →
      isoScan (lowerStr raw2) = Option.none →
      (∀ toks, Covers (lowerStr raw2) toks → toks = []) →
      parse_duration (PyVal.str s) = .error .invalidFormat) ∧
    parse_duration (PyVal.str "30".data) = .error .invalidFormat ∧
    parse_duration (PyVal.str "h".data) = .error .invalidFormat ∧
    parse_duration (PyVal.str "1h x".data) = .error .invalidFormat := by
  refine ⟨?_, ?_, by decide, by decide, by decide⟩
  · intro raw sgn v h
    unfold parse_compound at h
    cases hcs : compoundScan (lowerStr raw) with
    | none => rw [hcs] at h; cases h
    | some toks =>
      rw [hcs] at h
      replace h : (if toks.isEmpty = true then Option.none
          else some (sgn * pyTrunc (compoundTotal toks))) = some v := h
      by_cases hte : toks.isEmpty
      · rw [if_pos hte] at h; cases h
      · exact ⟨toks, by simpa [List.isEmpty_eq_true] using hte, scanGo_sound _ _ _ hcs⟩
  · intro s raw2 sgn hne hex hiso hcov
    unfold parse_duration
    simp only [List.isEmpty_eq_true, hne, if_false, hex]
    have hisoP : parse_iso8601 raw2 sgn = Option.none := by
      unfold parse_iso8601
      rw [hiso]
      rfl
    rw [hisoP]
    have hcomp : parse_compound raw2 sgn = Option.none := by
      unfold parse_compound
      cases hcs : compoundScan (lowerStr raw2) with
      | none => rfl
      | some toks =>
        have := hcov toks (scanGo_sound _ _ _ hcs)
        subst this
        rfl
    rw [hcomp]

/-- Witness for C5 at the concrete input "30". -/
theorem claim5_coverage_witness :
    parse_duration (PyVal.str "30".data) = .error .invalidFormat :=
  claim5_exhaustive_coverage.2.1 "30".data "30".data 1 (by decide) (by decide) (by decide)
    (fun toks hcov => by
      by_contra hne
      have hc : compoundScan (lowerStr "30".data) = some toks :=
        scanGo_complete hcov _ (Nat.lt_succ_self _)
      rw [show compoundScan (lowerStr "30".data) = Option.none from by decide] at hc
      cases hc)

/-- C6 amended: for every covered compound string with tokens in any order
and with repeated units, whose magnitudes are integers and whose exact sum
of magnitude times multiplier stays within `2 ^ 53`, the parsed result is
the sign times that exact truncated sum; the per-unit multipliers are
witnessed concretely (second=1, minute=60, hour=3600, day=86400,
week=604800, month=2592000, year=31536000), `mo` counting as month. -/
theorem claim6_compound_sum_amended :
    (∀ (raw : List Char) (sgn : ℤ) (ps : List (ℕ × TUnit)),
      Covers (lowerStr raw) (toksOfParts ps) → ps ≠ [] → specSumNat ps ≤ 2 ^ 53 →
      parse_compound raw sgn = some (sgn * (specSumNat ps : ℤ))) ∧
    parse_duration (PyVal.str "1s".data) = .ok 1 ∧
    parse_duration (PyVal.str "1m".data) = .ok 60 ∧
    parse_duration (PyVal.str "1h".data) = .ok 3600 ∧
    parse_duration (PyVal.str "1d".data) = .ok 86400 ∧
    parse_duration (PyVal.str "1w".data) = .ok 604800 ∧
    parse_duration (PyVal.str "1mo".data) = .ok 2592000 ∧
    parse_duration (PyVal.str "1y".data) = .ok 31536000 ∧
    parse_duration (PyVal.str "30s1h15m".data) = .ok 4530 ∧
    parse_duration (PyVal.str "1h2h".data) = .ok 10800 := by
  exact ⟨parse_compound_exact, by decide, by decide, by decide, by decide, by decide,
    by decide, by decide, by decide, by decide⟩


set_option maxRecDepth 10000 in
/-- Witness for C6 at "1h2h" (repeated units sum). -/
theorem claim6_sum_witness :
    parse_compound "1h2h".data 1 =
      some (1 * (specSumNat [(1, TUnit.hour), (2, TUnit.hour)] : ℤ)) :=
  claim6_compound_sum_amended.1 "1h2h".data 1 [(1, .hour), (2, .hour)]
    (scanGo_sound 5 _ _ (by decide)) (by decide) (by decide)

set_option maxRecDepth 10000 in
/-- C6 counterexample: "9007199254740992s1s" is a valid compound string
covered by the integer tokens 9007199254740992s and 1s, yet the parsed
result is 9007199254740992, not the claimed exact sum 9007199254740993 --
the float accumulation absorbs the final one. -/
theorem claim6_float_sum_cex :
    Covers (lowerStr "9007199254740992s1s".data)
      (toksOfParts [(9007199254740992, TUnit.second), (1, TUnit.second)]) ∧
    parse_duration (PyVal.str "9007199254740992s1s".data) = .ok 9007199254740992 ∧
    (1 : ℤ) * (specSumNat [(9007199254740992, TUnit.second), (1, TUnit.second)] : ℤ) =
      9007199254740993 ∧
    (9007199254740992 : ℤ) ≠ 9007199254740993 :=
  ⟨scanGo_sound 20 _ _ (by decide), by decide, by decide, by decide⟩

/-- Witness for C4 at "P1Y". -/
theorem claim4_iso_witness :
    parse_iso8601 "P1Y".data 1 =
      some (resolveSign (Option.none) 1 *
        pyTrunc (isoTotal ⟨Option.none, Option.none, Option.none, Option.none, Option.none⟩)) :=
  claim4_iso_day_time_only.1 "P1Y".data 1
    ⟨Option.none, Option.none, Option.none, Option.none, Option.none⟩ (by decide)


/-- C1 amended: the round-trip law `parse_duration(format_duration(n)) = n`
holds for every integer with `|n| ≤ 2 ^ 53` — including `n = 0` and every
negative `n` in that range — but not beyond: the compound parser
re-accumulates the formatted components in binary64 floating point, which
is exact only up to `2 ^ 53`. -/
theorem claim1_roundtrip_amended (n : ℤ) (s : List Char) (hn : n.natAbs ≤ 2 ^ 53)
    (hs : format_duration (PyVal.int n) = .ok s) :
    parse_duration (PyVal.str s) = .ok n := by
  have hok : format_duration (PyVal.int n) = .ok (fmtInt n) := rfl
  rw [hok] at hs
  have h : fmtInt n = s := by injection hs
  rw [← h]
  exact parse_fmtInt n hn

set_option maxRecDepth 10000 in
/-- Witness for C1 at n = -90: format gives "-1m30s" and the parse returns
-90. -/
theorem claim1_roundtrip_witness :
    (Int.natAbs (-90) ≤ 2 ^ 53) ∧
      format_duration (PyVal.int (-90)) = .ok "-1m30s".data ∧
      parse_duration (PyVal.str "-1m30s".data) = .ok (-90) :=
  ⟨by decide, by decide,
    claim1_roundtrip_amended (-90) "-1m30s".data (by decide) (by decide)⟩

set_option maxRecDepth 10000 in
/-- C1 counterexample: at n = 2 ^ 53 + 1 = 9007199254740993 the formatter
emits "285616414y8mo3w3d7h36m33s", but parsing that string back yields
9007199254740992 — the float accumulation in `_parse_compound` rounds the
exact total to the nearest even representable double, so the round trip
loses 1. -/
theorem claim1_roundtrip_cex :
    format_duration (PyVal.int 9007199254740993) =
      .ok "285616414y8mo3w3d7h36m33s".data ∧
    parse_duration (PyVal.str "285616414y8mo3w3d7h36m33s".data) =
      .ok 9007199254740992 ∧
    (9007199254740992 : ℤ) ≠ 9007199254740993 :=
  ⟨by decide, by decide, by decide⟩


end Duratypes
